import Mathlib

/-!
Verification development for the coresubset solvers of `coreax`
(`coreax/solvers/coresubset.py`).

The solvers are shallowly embedded over exact rationals.  Floating-point
scalars are modelled by `XQ`, rationals extended with the two infinities and a
NaN, so that the sentinel arithmetic the solvers rely on (masking candidates
with NaN, excluding already-selected points with `+inf`) is reproduced
faithfully, including the merge of NaN and `-inf` performed inside
`jnp.nanargmax` / `jnp.nanargmin`.

External collaborators that live outside `coreax/solvers/coresubset.py`
(the `Coresubset` container, `jax.random` primitives, `Kernel.compute_mean`,
`convert_stein_kernel`, the regularised least-squares solver) are modelled
from the specification and marked as such in their doc comments; everything
else is translated directly from the source.
-/

namespace Coreax

/-- IEEE-like scalar: a rational, `+inf`, `-inf`, or NaN. -/
inductive XQ where
  | fin (q : ℚ)
  | pinf
  | ninf
  | nan
deriving DecidableEq, Repr

namespace XQ

/-- NaN test. -/
def isNan : XQ → Bool
  | nan => true
  | _ => false

/-- Finiteness test. -/
def isFinB : XQ → Bool
  | fin _ => true
  | _ => false

/-- IEEE negation. -/
def neg : XQ → XQ
  | fin q => fin (-q)
  | pinf => ninf
  | ninf => pinf
  | nan => nan

/-- IEEE addition (`inf + (-inf) = NaN`, NaN propagates). -/
def add : XQ → XQ → XQ
  | nan, _ => nan
  | _, nan => nan
  | pinf, ninf => nan
  | ninf, pinf => nan
  | pinf, _ => pinf
  | _, pinf => pinf
  | ninf, _ => ninf
  | _, ninf => ninf
  | fin a, fin b => fin (a + b)

/-- IEEE subtraction. -/
def sub (a b : XQ) : XQ := add a (neg b)

/-- IEEE multiplication (`0 * inf = NaN`, NaN propagates). -/
def mul : XQ → XQ → XQ
  | nan, _ => nan
  | _, nan => nan
  | fin a, fin b => fin (a * b)
  | fin a, pinf => if 0 < a then pinf else if a < 0 then ninf else nan
  | fin a, ninf => if 0 < a then ninf else if a < 0 then pinf else nan
  | pinf, fin b => if 0 < b then pinf else if b < 0 then ninf else nan
  | ninf, fin b => if 0 < b then ninf else if b < 0 then pinf else nan
  | pinf, pinf => pinf
  | pinf, ninf => ninf
  | ninf, pinf => ninf
  | ninf, ninf => pinf

/-- IEEE division; only division by a positive finite scalar is exercised by
the solvers. -/
def div : XQ → XQ → XQ
  | nan, _ => nan
  | _, nan => nan
  | fin a, fin b =>
      if b = 0 then (if a = 0 then nan else if 0 < a then pinf else ninf)
      else fin (a / b)
  | pinf, fin b => if 0 ≤ b then pinf else ninf
  | ninf, fin b => if 0 ≤ b then ninf else pinf
  | fin _, pinf => fin 0
  | fin _, ninf => fin 0
  | pinf, _ => nan
  | ninf, _ => nan

/-- Value used by `jnp.nanargmax`: NaN is first replaced by `-inf`, so NaN and
`-inf` collapse to the bottom of the order. -/
def valMax : XQ → WithBot (WithTop ℚ)
  | nan => ⊥
  | ninf => ⊥
  | pinf => ((⊤ : WithTop ℚ) : WithBot (WithTop ℚ))
  | fin q => ((q : WithTop ℚ) : WithBot (WithTop ℚ))

/-- Value used by `jnp.nanargmin`: NaN is first replaced by `+inf`, so NaN and
`+inf` collapse to the top of the order. -/
def valMin : XQ → WithBot (WithTop ℚ)
  | nan => ((⊤ : WithTop ℚ) : WithBot (WithTop ℚ))
  | pinf => ((⊤ : WithTop ℚ) : WithBot (WithTop ℚ))
  | ninf => ⊥
  | fin q => ((q : WithTop ℚ) : WithBot (WithTop ℚ))

/-- Executable strict comparison in the `nanargmax` order (NaN collapsed with
`-inf` to the bottom). -/
def ltMax : XQ → XQ → Bool
  | nan, fin _ => true
  | nan, pinf => true
  | ninf, fin _ => true
  | ninf, pinf => true
  | fin a, fin b => decide (a < b)
  | fin _, pinf => true
  | _, _ => false

/-- Executable strict comparison in the `nanargmin` order (NaN collapsed with
`+inf` to the top). -/
def ltMin : XQ → XQ → Bool
  | ninf, fin _ => true
  | ninf, pinf => true
  | ninf, nan => true
  | fin a, fin b => decide (a < b)
  | fin _, pinf => true
  | fin _, nan => true
  | _, _ => false

end XQ

/-- Fold underlying first-extremum search: `better incumbent x` decides a
strict improvement, so the first extremal index is kept on ties. -/
def bestIdxAux (better : XQ → XQ → Bool) : List XQ → ℕ → ℕ → XQ → ℕ
  | [], _, bi, _ => bi
  | x :: xs, i, bi, bv =>
      if better bv x then bestIdxAux better xs (i + 1) i x
      else bestIdxAux better xs (i + 1) bi bv

/-- First index of an extremal element of `l` (`0` on the empty list). -/
def bestIdx (better : XQ → XQ → Bool) : List XQ → ℕ
  | [] => 0
  | x :: xs => bestIdxAux better xs 1 0 x

/-- `jnp.nanargmax`: maps NaN to `-inf`, takes the first index of the maximum,
and returns `-1` when every entry is NaN. -/
def nanargmax (l : List XQ) : ℤ :=
  if l.all XQ.isNan then -1 else (bestIdx XQ.ltMax l : ℤ)

/-- `jnp.nanargmin`: maps NaN to `+inf`, takes the first index of the minimum,
and returns `-1` when every entry is NaN. -/
def nanargmin (l : List XQ) : ℤ :=
  if l.all XQ.isNan then -1 else (bestIdx (fun bv x => XQ.ltMin x bv) l : ℤ)

/-- `jnp.argmin` (used on the GKIP loss, which contains no NaN): first index
of the minimum. -/
def argminPlain (l : List XQ) : ℕ := bestIdx (fun bv x => XQ.ltMin x bv) l

/-- Decidable equality for `Except`, used to evaluate the solvers' fallible
entry points on concrete inputs. -/
instance {ε α : Type} [DecidableEq ε] [DecidableEq α] : DecidableEq (Except ε α)
  | Except.ok x, Except.ok y =>
      if h : x = y then isTrue (by rw [h])
      else isFalse (by intro hc; cases hc; exact h rfl)
  | Except.ok _, Except.error _ => isFalse (by intro hc; cases hc)
  | Except.error _, Except.ok _ => isFalse (by intro hc; cases hc)
  | Except.error e, Except.error f =>
      if h : e = f then isTrue (by rw [h])
      else isFalse (by intro hc; cases hc; exact h rfl)

/-- `jax.lax.fori_loop` with lower bound `0`: `iterate body m s` applies
`body 0`, …, `body (m-1)` in order, starting from `s`. -/
def iterate (body : ℕ → α → α) : ℕ → α → α
  | 0, s => s
  | m + 1, s => body m (iterate body m s)

/-- JAX gather semantics for a dynamic integer index into an array of length
`n`: negative indices wrap once, and the result is clamped into range. -/
def zwrap (n : ℕ) (z : ℤ) : ℕ :=
  (max 0 (min ((n : ℤ) - 1) (if z < 0 then z + n else z))).toNat

/-- JAX scatter (`arr.at[z].set v`) semantics on a total function over `ℕ`
standing for an array of length `n`: negative indices wrap once and
out-of-bounds updates are dropped. -/
def fset (n : ℕ) (pen : ℕ → XQ) (z : ℤ) (v : XQ) : ℕ → XQ :=
  let z' := if z < 0 then z + n else z
  if 0 ≤ z' ∧ z' < n then (fun j => if (j : ℤ) = z' then v else pen j) else pen

/-- A `Coresubset`: an index array into the originating dataset together with
per-node weights (`nodes` in the source).  The originating dataset itself is
passed separately as a weight list and a kernel Gram function. -/
structure Coresubset where
  indices : List ℤ
  nodeWeights : List ℚ
deriving DecidableEq, Repr

/-- Wording of `MSG` in the source: the descriptive sizing error raised when a
requested coreset is larger than the dataset (quotes elided). -/
def sizingMSG : String :=
  "coreset_size must be less than len(dataset) by definition of a coreset"

/-- Modelled from the spec: constructing a `Coresubset` whose index count
exceeds the dataset length must fail with a descriptive sizing error (the
container class lives in `coreax/coreset.py`, outside the solver module). -/
def coresubsetNew (idx : List ℤ) (nw : List ℚ) (n : ℕ) : Except String Coresubset :=
  if n < idx.length then
    Except.error "cannot construct a coresubset with more indices than data points"
  else Except.ok ⟨idx, nw⟩

/-- `_initial_coresubset`: a `fill`-valued, zero-weighted index array of length
`coreset_size`; the container's sizing failure is re-raised as the descriptive
`MSG` error when the requested size exceeds the dataset length. -/
def initialCoresubset (fill : ℤ) (coresetSize n : ℕ) : Except String Coresubset :=
  match coresubsetNew (List.replicate coresetSize fill) (List.replicate coresetSize 0) n with
  | Except.ok c => Except.ok c
  | Except.error e => if coresetSize > n then Except.error sizingMSG else Except.error e

/-- Modelled from the spec: `Kernel.compute_mean(data, coreset, axis=1)` — the
mean kernel value between every dataset point and the currently selected
coreset points, weighted by the coreset nodes' weights so that zero-weighted
(padding) nodes are excluded; an all-zero weight vector yields the zero
vector (the kernel class lives in `coreax/kernel.py`, outside the solver
module).  Block size and unroll are performance knobs and semantically inert. -/
def computeMeanAxis1 (k : ℕ → ℕ → ℚ) (n : ℕ) (idx : List ℤ) (nw : List ℚ) : ℕ → ℚ :=
  let totalW := nw.sum
  fun i =>
    if totalW = 0 then 0
    else (List.zipWith (fun z wj => wj * k i (zwrap n z)) idx nw).sum / totalW

/-- Loop body of `_greedy_kernel_selection`: mask non-positive-weight dataset
points with NaN, ask the selection function for the next index, write it at
position `i`, add the kernel column of the chosen point to the penalty, and
(when `unique`) pin the chosen point's penalty to `+inf`. -/
def greedyBody (k : ℕ → ℕ → ℚ) (w : List ℚ) (selF : ℕ → List XQ → ℤ) (unique : Bool)
    (i : ℕ) (val : List ℤ × (ℕ → XQ)) : List ℤ × (ℕ → XQ) :=
  let n := w.length
  let coresetIndices := val.1
  let penalty := val.2
  let validPenalty : ℕ → XQ := fun j => if 0 < w.getD j 0 then penalty j else XQ.nan
  let updatedCoresetIndex := selF i ((List.range n).map validPenalty)
  let updatedCoresetIndices := coresetIndices.set i updatedCoresetIndex
  let penaltyUpdate : ℕ → ℚ := fun j => k j (zwrap n updatedCoresetIndex)
  let updatedPenalty : ℕ → XQ := fun j => XQ.add (penalty j) (XQ.fin (penaltyUpdate j))
  let updatedPenalty :=
    if unique then fset n updatedPenalty updatedCoresetIndex XQ.pinf else updatedPenalty
  (updatedCoresetIndices, updatedPenalty)

/-- `_greedy_kernel_selection`: pad the initial coresubset up to `output_size`
with zero-valued zero-weighted indices, initialise the kernel similarity
penalty from the (padded) coresubset, run `output_size` greedy iterations and
return the first `output_size` indices. -/
def greedyKernelSelection (k : ℕ → ℕ → ℚ) (w : List ℚ) (cs : Coresubset)
    (selF : ℕ → List XQ → ℤ) (outputSize : ℕ) (unique : Bool) : List ℤ :=
  let n := w.length
  let padding := max 0 (outputSize - cs.indices.length)
  let paddedIndices := cs.indices ++ List.replicate padding 0
  let paddedWeights := cs.nodeWeights ++ List.replicate padding 0
  let penalty0 : ℕ → XQ := fun j => XQ.fin (computeMeanAxis1 k n paddedIndices paddedWeights j)
  let out := iterate (greedyBody k w selF unique) outputSize (paddedIndices, penalty0)
  out.1.take outputSize

/-- Modelled from the spec: `Kernel.gramian_row_mean` — the per-point mean
kernel value against the full dataset (external to the solver module). -/
def gramianRowMean (k : ℕ → ℕ → ℚ) (n : ℕ) : List ℚ :=
  (List.range n).map (fun i => ((List.range n).map (k i)).sum / n)

/-- `KernelHerding.refine.selection_function`: the first data index maximising
`gramian_row_mean - penalty / (i + 1)`, NaN entries skipped. -/
def herdingSelectionFunction (rowMean : List ℚ) (i : ℕ) (penalty : List XQ) : ℤ :=
  nanargmax (List.zipWith
    (fun g p => XQ.sub (XQ.fin g) (XQ.div p (XQ.fin ((i : ℚ) + 1)))) rowMean penalty)

/-- `KernelHerding.refine`: compute the Gramian row-mean unless cached in the
solver state, then run the shared greedy selection; returns the refined index
array and the (cacheable) row-mean state. -/
def kernelHerdingRefine (k : ℕ → ℕ → ℚ) (w : List ℚ) (coresetSize : ℕ) (unique : Bool)
    (cs : Coresubset) (solverState : Option (List ℚ)) : List ℤ × List ℚ :=
  let rowMean := solverState.getD (gramianRowMean k w.length)
  (greedyKernelSelection k w cs (herdingSelectionFunction rowMean) coresetSize unique, rowMean)

/-- `KernelHerding.reduce`: build the all-placeholder initial coresubset (which
raises the sizing error when `coreset_size > len(dataset)`) and refine it. -/
def kernelHerdingReduce (k : ℕ → ℕ → ℚ) (w : List ℚ) (coresetSize : ℕ) (unique : Bool)
    (solverState : Option (List ℚ)) : Except String (List ℤ × List ℚ) :=
  (initialCoresubset 0 coresetSize w.length).map
    (fun cs => kernelHerdingRefine k w coresetSize unique cs solverState)

/-- Modelled from the spec: `jax.random.choice` draws `coreset_size` indices
below `n` and fails when asked for a without-replacement sample larger than
the population.  The concrete draw is an unspecified deterministic function of
the key; it is modelled as a fixed key-derived sequence. -/
def jrChoice (key n size : ℕ) (replace : Bool) : Except String (List ℤ) :=
  if replace = false ∧ n < size then
    Except.error "cannot take a larger sample than population when replace is False"
  else Except.ok ((List.range size).map (fun i => (((key + i) % max n 1 : ℕ) : ℤ)))

/-- `RandomSample.reduce`: sample `coreset_size` indices (without replacement
when `unique`) and wrap them in a `Coresubset`; a `ValueError` escaping that
block is converted to the descriptive sizing error exactly when
`coreset_size > len(dataset)` and `unique`.  The unweighted path is modelled
(`weighted = False`, so `selection_weights = None`); the weighted flag only
changes which indices the external sampler draws. -/
def randomSampleReduce (key : ℕ) (n coresetSize : ℕ) (unique : Bool) :
    Except String Coresubset :=
  let attempt : Except String Coresubset :=
    match jrChoice key n coresetSize (!unique) with
    | Except.error e => Except.error e
    | Except.ok idx => coresubsetNew idx (List.replicate coresetSize 1) n
  match attempt with
  | Except.ok c => Except.ok c
  | Except.error e =>
      if coresetSize > n ∧ unique then Except.error sizingMSG else Except.error e

/-- State threaded through `RPCholesky.reduce._greedy_body`: the residual
diagonal, the approximation (factor) matrix as a function of
`(row, column)`, and the coreset index array. -/
structure RPCState where
  residual : ℕ → ℚ
  approx : ℕ → ℕ → ℚ
  indices : List ℤ

/-- Dot product of two rows of the approximation matrix over its `m` columns
(`approximation_matrix @ approximation_matrix[pivot_point]`). -/
def rowDot (m : ℕ) (r1 r2 : ℕ → ℚ) : ℚ :=
  ((List.range m).map (fun c => r1 c * r2 c)).sum

/-- `RPCholesky.reduce._greedy_body` (Algorithm 1 of Chen et al.).  The pivot
is drawn by the external sampler `choiceP` from the per-iteration key
`foldIn key i`, the new factor column `g / sqrt(g[pivot])` is written into
column `i`, and the residual diagonal is updated using column `i` of the
approximation matrix read from the PRE-UPDATE matrix, exactly as the source
does (`jnp.square(approximation_matrix[:, i])` on the old array), then
clipped at zero; `unique` zeroes the pivot's residual entry.  `jnp.sqrt` and
the PRNG are abstracted as parameters (`sqrtQ`, `foldIn`, `choiceP`). -/
def rpcholeskyGreedyBody (n m : ℕ) (k : ℕ → ℕ → ℚ) (sqrtQ : ℚ → ℚ)
    (foldIn : ℕ → ℕ → ℕ) (choiceP : ℕ → (ℕ → ℚ) → ℕ) (key : ℕ) (unique : Bool)
    (i : ℕ) (st : RPCState) : RPCState :=
  let keyI := foldIn key i
  let pivot := choiceP keyI st.residual
  let updatedIndices := st.indices.set i (pivot : ℤ)
  let g : ℕ → ℚ := fun j => k j pivot - rowDot m (st.approx j) (st.approx pivot)
  let newColumn : ℕ → ℚ := fun j => g j / sqrtQ (g pivot)
  let updatedApprox : ℕ → ℕ → ℚ :=
    fun j c => if c = i then newColumn j else st.approx j c
  let oldColumnI : ℕ → ℚ := fun j => st.approx j i
  let updatedResidual : ℕ → ℚ := fun j => max (st.residual j - (oldColumnI j) ^ 2) 0
  let updatedResidual : ℕ → ℚ :=
    if unique then (fun j => if j = pivot then 0 else updatedResidual j) else updatedResidual
  ⟨updatedResidual, updatedApprox, updatedIndices⟩

/-- Modelled from the spec: the residual-diagonal update of step 3 of the
RPCholesky iteration as the spec words it — "subtract the square of the NEW
factor column from the residual diagonal, clipping at zero".  This variant
reads column `i` of the UPDATED approximation matrix; it exists only to be
compared against `rpcholeskyGreedyBody`. -/
def rpcholeskyGreedyBodySpec (n m : ℕ) (k : ℕ → ℕ → ℚ) (sqrtQ : ℚ → ℚ)
    (foldIn : ℕ → ℕ → ℕ) (choiceP : ℕ → (ℕ → ℚ) → ℕ) (key : ℕ) (unique : Bool)
    (i : ℕ) (st : RPCState) : RPCState :=
  let keyI := foldIn key i
  let pivot := choiceP keyI st.residual
  let updatedIndices := st.indices.set i (pivot : ℤ)
  let g : ℕ → ℚ := fun j => k j pivot - rowDot m (st.approx j) (st.approx pivot)
  let newColumn : ℕ → ℚ := fun j => g j / sqrtQ (g pivot)
  let updatedApprox : ℕ → ℕ → ℚ :=
    fun j c => if c = i then newColumn j else st.approx j c
  let updatedResidual : ℕ → ℚ := fun j => max (st.residual j - (updatedApprox j i) ^ 2) 0
  let updatedResidual : ℕ → ℚ :=
    if unique then (fun j => if j = pivot then 0 else updatedResidual j) else updatedResidual
  ⟨updatedResidual, updatedApprox, updatedIndices⟩

/-- `RPCholesky.reduce`: Gramian diagonal (cached or computed), all-placeholder
initial coresubset (raising the sizing error when too large), then
`coreset_size` greedy pivot iterations starting from a zero approximation
matrix; returns the chosen indices and the cached diagonal. -/
def rpcholeskyReduce (k : ℕ → ℕ → ℚ) (sqrtQ : ℚ → ℚ) (foldIn : ℕ → ℕ → ℕ)
    (choiceP : ℕ → (ℕ → ℚ) → ℕ) (key : ℕ) (n coresetSize : ℕ) (unique : Bool)
    (solverState : Option (ℕ → ℚ)) : Except String (List ℤ × (ℕ → ℚ)) :=
  let gramianDiagonal := solverState.getD (fun i => k i i)
  (initialCoresubset 0 coresetSize n).map (fun cs =>
    let out := iterate
      (rpcholeskyGreedyBody n coresetSize k sqrtQ foldIn choiceP key unique)
      coresetSize ⟨gramianDiagonal, fun _ _ => 0, cs.indices⟩
    (out.indices, gramianDiagonal))

/-- `SteinThinning.refine.selection_function`: the first data index minimising
`stein_diag + 2·penalty + laplace_correction - i·regularised_log_pdf`, NaN
entries skipped. -/
def steinSelectionFunction (steinDiag laplaceCorrection regularisedLogPdf : ℕ → ℚ)
    (i : ℕ) (penalty : List XQ) : ℤ :=
  nanargmin ((penalty.enum).map (fun p =>
    XQ.sub
      (XQ.add (XQ.add (XQ.fin (steinDiag p.1)) (XQ.mul (XQ.fin 2) p.2))
        (XQ.fin (laplaceCorrection p.1)))
      (XQ.fin ((i : ℚ) * regularisedLogPdf p.1))))

/-- `SteinThinning.refine`.  The converted Stein kernel
(`convert_stein_kernel(x, self.kernel, self.score_matching)`, external to the
solver module) is the parameter `ks`; the supplied base kernel is `k`.  As in
the source, the self-diagonal is computed from the SUPPLIED kernel `k`
(`jax.vmap(self.kernel.compute_elementwise)(x, x)`), and the shared greedy
engine also runs on `k`; `ks` enters only the regularisation terms, which are
external computations (KDE log-pdf, Laplace correction of the score) passed
in as `laplace` and `logpdf`. -/
def steinThinningRefine (k ks : ℕ → ℕ → ℚ) (laplace logpdf : ℕ → ℚ) (w : List ℚ)
    (coresetSize : ℕ) (unique regularise : Bool) (cs : Coresubset) : List ℤ :=
  let steinKernelDiagonal : ℕ → ℚ := fun i => k i i
  let regulariserLambda : ℚ := 1 / (cs.indices.length : ℚ)
  let laplaceCorrection : ℕ → ℚ := if regularise then laplace else fun _ => 0
  let regularisedLogPdf : ℕ → ℚ :=
    if regularise then (fun i => regulariserLambda * logpdf i) else fun _ => 0
  greedyKernelSelection k w cs
    (steinSelectionFunction steinKernelDiagonal laplaceCorrection regularisedLogPdf)
    coresetSize unique

/-- `SteinThinning.reduce`: all-placeholder initial coresubset (raising the
sizing error when too large), then refinement. -/
def steinThinningReduce (k ks : ℕ → ℕ → ℚ) (laplace logpdf : ℕ → ℚ) (w : List ℚ)
    (coresetSize : ℕ) (unique regularise : Bool) : Except String (List ℤ) :=
  (initialCoresubset 0 coresetSize w.length).map
    (fun cs => steinThinningRefine k ks laplace logpdf w coresetSize unique regularise cs)

/-- Modelled from the spec: the variant of `SteinThinning.refine` whose
self-diagonal is "the Stein kernel evaluated elementwise at each point against
itself", i.e. computed from the converted kernel `ks`; it exists only to be
compared against `steinThinningRefine`. -/
def steinThinningRefineSpecDiag (k ks : ℕ → ℕ → ℚ) (laplace logpdf : ℕ → ℚ) (w : List ℚ)
    (coresetSize : ℕ) (unique regularise : Bool) (cs : Coresubset) : List ℤ :=
  let steinKernelDiagonal : ℕ → ℚ := fun i => ks i i
  let regulariserLambda : ℚ := 1 / (cs.indices.length : ℚ)
  let laplaceCorrection : ℕ → ℚ := if regularise then laplace else fun _ => 0
  let regularisedLogPdf : ℕ → ℚ :=
    if regularise then (fun i => regulariserLambda * logpdf i) else fun _ => 0
  greedyKernelSelection k w cs
    (steinSelectionFunction steinKernelDiagonal laplaceCorrection regularisedLogPdf)
    coresetSize unique

/-- Modelled from the spec: `SteinThinning.reduce` against the spec-worded
Stein self-diagonal (comparison variant of `steinThinningReduce`). -/
def steinThinningReduceSpecDiag (k ks : ℕ → ℕ → ℚ) (laplace logpdf : ℕ → ℚ) (w : List ℚ)
    (coresetSize : ℕ) (unique regularise : Bool) : Except String (List ℤ) :=
  (initialCoresubset 0 coresetSize w.length).map
    (fun cs =>
      steinThinningRefineSpecDiag k ks laplace logpdf w coresetSize unique regularise cs)

/-- Index into the `(n+1)`-padded feature Gramian / response arrays: the
sentinel `-1` wraps to the padding row `n` under JAX gather semantics. -/
def sentinelIdx (n : ℕ) (z : ℤ) : ℕ := zwrap (n + 1) z

/-- The padded feature Gramian built in `GreedyKernelInducingPoints.refine`
when no solver state is supplied: the feature kernel Gram matrix padded with
one extra all-zero row and column. -/
def paddedGramianOf (n : ℕ) (featureKernel : ℕ → ℕ → ℚ) : ℕ → ℕ → ℚ :=
  fun a b => if a < n ∧ b < n then featureKernel a b else 0

/-- `_greedy_kernel_inducing_points_loss` for ONE candidate coreset: extract
the candidate's Gram submatrix, cross-Gramian against the whole dataset and
response subvector, solve the regularised least-squares system through the
external solver `solve` (the batched `solve_stack` is a data-parallel map of
this per-system solve), and return the kernel-ridge loss with the
coreset-invariant first term omitted. -/
def gkipCandidateLoss (n : ℕ)
    (solve : List (List ℚ) → ℚ → List ℚ → (ℕ → ℕ → ℚ) → List ℚ)
    (paddedResponses : List ℚ) (paddedFeatureGramian : ℕ → ℕ → ℚ)
    (regularisationParameter : ℚ) (identity : ℕ → ℕ → ℚ)
    (candidate : List ℤ) : ℚ :=
  let coresetGramian :=
    candidate.map (fun a => candidate.map
      (fun b => paddedFeatureGramian (sentinelIdx n a) (sentinelIdx n b)))
  let coresetCrossGramian :=
    candidate.map (fun a => (List.range n).map
      (fun j => paddedFeatureGramian (sentinelIdx n a) j))
  let coresetResponses := candidate.map (fun a => paddedResponses.getD (sentinelIdx n a) 0)
  let coefficients := solve coresetGramian regularisationParameter coresetResponses identity
  let predictions : ℕ → ℚ := fun j =>
    (List.zipWith (fun crow cm => crow.getD j 0 * cm) coresetCrossGramian coefficients).sum
  ((List.range n).map
    (fun j => (predictions j - 2 * paddedResponses.getD j 0) * predictions j)).sum

/-- `coreax.util.sample_batch_indices`: one random permutation of
`0 .. max_index - 1` per batch, truncated to `batch_size`, derived from
per-batch split keys; fails when `max_index < batch_size`.  The PRNG
(`jax.random.permutation` over split keys) is abstracted as `perm` and
`split`. -/
def sampleBatchIndices (perm : ℕ → List ℤ) (split : ℕ → ℕ → ℕ)
    (key maxIndex batchSize numBatches : ℕ) : Except String (List (List ℤ)) :=
  if maxIndex < batchSize then
    Except.error "max_index must be greater than or equal to batch_size"
  else Except.ok
    ((List.range numBatches).map (fun b => (perm (split key b)).take batchSize))

/-- Wording of the `SizeWarning` emitted by `GreedyKernelInducingPoints.refine`
for an oversized input coresubset (quotes elided). -/
def sizeWarningMsg : String :=
  "Requested coreset size is smaller than input coresubset, clipping to the correct size and proceeding..."

/-- The pad-or-clip preamble of `GreedyKernelInducingPoints.refine`: pad a
short index array up to `coreset_size` with `-1` sentinels, warn and truncate
an oversized one, and return the (possibly empty) warning list alongside the
exactly-`coreset_size` index array. -/
def gkipClipIndices (coresetSize : ℕ) (idx : List ℤ) : List String × List ℤ :=
  if coresetSize > idx.length then
    ([], idx ++ List.replicate (max 0 (coresetSize - idx.length)) (-1 : ℤ))
  else if coresetSize < idx.length then
    ([sizeWarningMsg], idx.take coresetSize)
  else ([], idx)

/-- Result of `GreedyKernelInducingPoints.refine`: the warnings emitted and the
refined index array (the returned coresubset's nodes). -/
structure GKIPResult where
  warnings : List String
  indices : List ℤ
deriving Repr

/-- Loop body of `GreedyKernelInducingPoints.refine`: activate diagonal entry
`i` of the identity helper, score every candidate coreset through the batched
least-squares loss, penalise (`+inf`) candidates already present elsewhere in
the coreset when `unique`, pick the loss-minimising candidate, write it into
position `i` of the coreset and of every candidate row, and load the next
batch into column `i + 1` (JAX clamps the out-of-range batch row and drops
the out-of-range column write on the last iteration). -/
def gkipGreedyBody (n coresetSize batchSize : ℕ)
    (solve : List (List ℚ) → ℚ → List ℚ → (ℕ → ℕ → ℚ) → List ℚ)
    (paddedResponses : List ℚ) (paddedFeatureGramian : ℕ → ℕ → ℚ)
    (regularisationParameter : ℚ) (unique : Bool) (batchIndices : List (List ℤ))
    (i : ℕ) (val : List ℤ × (ℕ → ℕ → ℚ) × (ℕ → List ℤ)) :
    List ℤ × (ℕ → ℕ → ℚ) × (ℕ → List ℤ) :=
  let coresetIndices := val.1
  let identity := val.2.1
  let candidateCoresets := val.2.2
  let updatedIdentity : ℕ → ℕ → ℚ :=
    fun a b => if a = i ∧ b = i then 1 else identity a b
  let loss : ℕ → ℚ := fun r =>
    gkipCandidateLoss n solve paddedResponses paddedFeatureGramian
      regularisationParameter updatedIdentity (candidateCoresets r)
  let lossX : List XQ :=
    if unique then
      (List.range batchSize).map (fun r =>
        if (candidateCoresets r).getD i (-1) ∈ coresetIndices.set i (-1) then XQ.pinf
        else XQ.fin (loss r))
    else (List.range batchSize).map (fun r => XQ.fin (loss r))
  let indexToInclude := (candidateCoresets (argminPlain lossX)).getD i (-1)
  let nextBatch := batchIndices.getD (min (i + 1) (coresetSize - 1)) []
  let updatedCandidateCoresets : ℕ → List ℤ := fun r =>
    (((candidateCoresets r).set i indexToInclude).set (i + 1) (nextBatch.getD r (-1)))
  let updatedCoresetIndices := coresetIndices.set i indexToInclude
  (updatedCoresetIndices, updatedIdentity, updatedCandidateCoresets)

/-- `GreedyKernelInducingPoints.refine`: pad or clip the input coresubset,
compute (or reuse) the padded feature Gramian, pre-sample the per-iteration
candidate batches, build the adaptive identity helper, run `coreset_size`
greedy replacement iterations, and wrap the refined index array in a fresh
`Coresubset(updated_coreset_indices, dataset)` — whose spec-contracted sizing
validation fails (with the container's generic sizing error) when
`coreset_size > len(dataset)`.  `n` is the dataset size, `responses` the
response vector; the least-squares solver and the PRNG are the abstract
parameters `solve`, `perm` and `split`. -/
def gkipRefine (n : ℕ) (featureKernel : ℕ → ℕ → ℚ) (responses : List ℚ)
    (solve : List (List ℚ) → ℚ → List ℚ → (ℕ → ℕ → ℚ) → List ℚ)
    (regularisationParameter : ℚ) (unique : Bool) (batchSizeOpt : Option ℕ)
    (perm : ℕ → List ℤ) (split : ℕ → ℕ → ℕ) (key : ℕ) (coresetSize : ℕ)
    (cs : Coresubset) (solverState : Option (ℕ → ℕ → ℚ)) : Except String GKIPResult :=
  let clipped := gkipClipIndices coresetSize cs.indices
  let warnings := clipped.1
  let coresetIndices := clipped.2
  let paddedResponses := responses ++ [0]
  let paddedFeatureGramian := solverState.getD (paddedGramianOf n featureKernel)
  let batchSize := match batchSizeOpt with
    | some b => if b < n then b else n
    | none => n
  match sampleBatchIndices perm split key n batchSize coresetSize with
  | Except.error e => Except.error e
  | Except.ok batchIndices =>
    let initialCandidateCoresets : ℕ → List ℤ := fun r =>
      coresetIndices.set 0 ((batchIndices.getD 0 []).getD r (-1))
    let identityHelper : ℕ → ℚ := fun j => if j < n then 1 else 0
    let identity : ℕ → ℕ → ℚ := fun a b =>
      if a = b then identityHelper (sentinelIdx n (coresetIndices.getD a (-1))) else 0
    let out := iterate
      (gkipGreedyBody n coresetSize batchSize solve paddedResponses paddedFeatureGramian
        regularisationParameter unique batchIndices)
      coresetSize (coresetIndices, identity, initialCandidateCoresets)
    match coresubsetNew out.1 (List.replicate out.1.length 1) n with
    | Except.error e => Except.error e
    | Except.ok updated => Except.ok ⟨warnings, updated.indices⟩

/-- `GreedyKernelInducingPoints.reduce`: `-1`-filled initial coresubset
(raising the sizing error when `coreset_size > len(dataset)`), then
refinement. -/
def gkipReduce (n : ℕ) (featureKernel : ℕ → ℕ → ℚ) (responses : List ℚ)
    (solve : List (List ℚ) → ℚ → List ℚ → (ℕ → ℕ → ℚ) → List ℚ)
    (regularisationParameter : ℚ) (unique : Bool) (batchSizeOpt : Option ℕ)
    (perm : ℕ → List ℤ) (split : ℕ → ℕ → ℕ) (key : ℕ) (coresetSize : ℕ)
    (solverState : Option (ℕ → ℕ → ℚ)) : Except String GKIPResult :=
  match initialCoresubset (-1) coresetSize n with
  | Except.error e => Except.error e
  | Except.ok cs =>
      gkipRefine n featureKernel responses solve regularisationParameter unique
        batchSizeOpt perm split key coresetSize cs solverState

/-- Modelled from the spec: `as_data` wraps the index array returned by the
greedy engine in a fresh `Data` with the container's default unit weights;
this is the node content of the coresubset a refinement returns. -/
def asOutputCoresubset (r : List ℤ) : Coresubset := ⟨r, List.replicate r.length 1⟩

/-- Number of dataset points with strictly positive weight. -/
def posWeightCount (w : List ℚ) : ℕ :=
  ((Finset.range w.length).filter (fun j => 0 < w.getD j 0)).card

/-- Number of strictly positive entries among the first `n` values of `g`. -/
def posEntryCount (g : ℕ → ℚ) (n : ℕ) : ℕ :=
  ((Finset.range n).filter (fun j => 0 < g j)).card

/-- A penalty vector that is neither NaN nor `-inf` anywhere — the shape the
greedy engine's penalty keeps throughout (finite values plus `+inf`
exclusion sentinels). -/
def PenOk (pen : ℕ → XQ) : Prop := ∀ j, pen j ≠ XQ.nan ∧ pen j ≠ XQ.ninf

/-- Freshness contract for a selection function run inside the greedy engine
with dataset weights `w`: whenever the penalty vector is NaN/`-inf`-free and
some positive-weight point still has a finite penalty, the selection returns
an in-range positive-weight index whose penalty is finite (hence not yet
excluded by the `+inf` sentinel). -/
def SelFresh (w : List ℚ) (selF : ℕ → List XQ → ℤ) : Prop :=
  ∀ (i : ℕ) (pen : ℕ → XQ), PenOk pen →
    (∃ j, j < w.length ∧ 0 < w.getD j 0 ∧ (pen j).isFinB = true) →
    ∃ c : ℕ,
      selF i ((List.range w.length).map
        (fun j => if 0 < w.getD j 0 then pen j else XQ.nan)) = (c : ℤ) ∧
      c < w.length ∧ 0 < w.getD c 0 ∧ (pen c).isFinB = true

/-- Faithfulness contract for the abstracted `jax.random.choice` pivot sampler
of RPCholesky: when some entry of the probability vector (the residual
diagonal) is strictly positive, the sampled index is in range and has
strictly positive probability — an index of zero mass is never drawn. -/
def ChoiceOk (n : ℕ) (choiceP : ℕ → (ℕ → ℚ) → ℕ) : Prop :=
  ∀ (ky : ℕ) (r : ℕ → ℚ), (∃ j, j < n ∧ 0 < r j) →
    choiceP ky r < n ∧ 0 < r (choiceP ky r)

/-- Faithfulness contract for the abstracted `jax.random.permutation` used by
`sample_batch_indices`: every draw is a permutation of `0 .. n-1` (length `n`,
every such index occurs, and nothing else occurs). -/
def PermCover (n : ℕ) (perm : ℕ → List ℤ) : Prop :=
  ∀ s, (perm s).length = n ∧ (∀ j, j < n → (j : ℤ) ∈ perm s) ∧
    ∀ z ∈ perm s, ∃ j, j < n ∧ z = (j : ℤ)

/-! ### List access helpers -/

theorem getD_eq_getElem {α : Type} (l : List α) (d : α) {j : ℕ} (h : j < l.length) :
    l.getD j d = l[j] := by
  simp [List.getD_eq_getElem?_getD, List.getElem?_eq_getElem h]

theorem getD_map_range {α : Type} (g : ℕ → α) {n j : ℕ} (hj : j < n) (d : α) :
    ((List.range n).map g).getD j d = g j := by
  have h : j < ((List.range n).map g).length := by simpa using hj
  rw [getD_eq_getElem _ _ h]
  simp

theorem getD_zipWith {α β γ : Type} (f : α → β → γ) (as : List α) (bs : List β)
    {j : ℕ} (h1 : j < as.length) (h2 : j < bs.length) (d : γ) (da : α) (db : β) :
    (List.zipWith f as bs).getD j d = f (as.getD j da) (bs.getD j db) := by
  have h : j < (List.zipWith f as bs).length := by
    simp [List.length_zipWith]; omega
  rw [getD_eq_getElem _ _ h, getD_eq_getElem _ _ h1, getD_eq_getElem _ _ h2]
  simp

theorem getD_enum_map {α β : Type} (g : ℕ × α → β) (l : List α)
    {j : ℕ} (hj : j < l.length) (d : β) (da : α) :
    ((l.enum).map g).getD j d = g (j, l.getD j da) := by
  have h : j < ((l.enum).map g).length := by simpa using hj
  rw [getD_eq_getElem _ _ h, getD_eq_getElem _ _ hj]
  simp

theorem take_set_of_le {α : Type} (l : List α) (i m : ℕ) (a : α) (h : m ≤ i) :
    (l.set i a).take m = l.take m := by
  apply List.ext_getElem?
  intro j
  rw [List.getElem?_take, List.getElem?_take]
  rcases lt_or_ge j m with hj | hj
  · rw [if_pos hj, if_pos hj, List.getElem?_set_ne (by omega)]
  · rw [if_neg (by omega), if_neg (by omega)]

theorem take_succ_set {α : Type} (l : List α) (i : ℕ) (a : α) (h : i < l.length) :
    (l.set i a).take (i + 1) = l.take i ++ [a] := by
  rw [List.take_succ, take_set_of_le l i i a le_rfl]
  have hl : i < (l.set i a).length := by simpa using h
  simp [List.getElem?_eq_getElem hl]

/-! ### Extremum-search correctness -/

theorem ltMax_iff (a b : XQ) : XQ.ltMax a b = true ↔ XQ.valMax a < XQ.valMax b := by
  cases a <;> cases b <;>
    simp [XQ.ltMax, XQ.valMax, WithBot.bot_lt_coe, WithTop.coe_lt_top,
      WithBot.coe_lt_coe, WithTop.coe_lt_coe] <;>
    exact WithBot.coe_lt_coe.mpr (WithTop.coe_lt_top _)

theorem ltMin_iff (a b : XQ) : XQ.ltMin a b = true ↔ XQ.valMin a < XQ.valMin b := by
  cases a <;> cases b <;>
    simp [XQ.ltMin, XQ.valMin, WithBot.bot_lt_coe, WithTop.coe_lt_top,
      WithBot.coe_lt_coe, WithTop.coe_lt_coe] <;>
    exact WithBot.coe_lt_coe.mpr (WithTop.coe_lt_top _)

theorem bestIdxAux_spec {β : Type} [LinearOrder β] (κ : XQ → β) (better : XQ → XQ → Bool)
    (hb : ∀ a b, better a b = true ↔ κ a < κ b) (full : List XQ) :
    ∀ (fuel i bi : ℕ) (bv : XQ), full.length - i = fuel → bi < full.length →
      full.getD bi XQ.nan = bv → (∀ j, j < i → κ (full.getD j XQ.nan) ≤ κ bv) →
      bestIdxAux better (full.drop i) i bi bv < full.length ∧
      ∀ j, j < full.length →
        κ (full.getD j XQ.nan) ≤ κ (full.getD (bestIdxAux better (full.drop i) i bi bv) XQ.nan) := by
  intro fuel
  induction fuel with
  | zero =>
      intro i bi bv hfuel hbi hbv hdom
      have hlen : full.length ≤ i := by omega
      rw [List.drop_eq_nil_of_le hlen]
      have hred : bestIdxAux better [] i bi bv = bi := rfl
      rw [hred]
      refine ⟨hbi, fun j hj => ?_⟩
      rw [hbv]
      exact hdom j (lt_of_lt_of_le hj hlen)
  | succ fuel ih =>
      intro i bi bv hfuel hbi hbv hdom
      have hi : i < full.length := by omega
      rw [List.drop_eq_getElem_cons hi]
      have hgetD : full.getD i XQ.nan = full[i] := getD_eq_getElem full XQ.nan hi
      by_cases hc : better bv full[i] = true
      · rw [show bestIdxAux better (full[i] :: full.drop (i + 1)) i bi bv =
              bestIdxAux better (full.drop (i + 1)) (i + 1) i full[i] by
            simp [bestIdxAux, hc]]
        refine ih (i + 1) i full[i] (by omega) hi hgetD ?_
        intro j hj
        rcases Nat.lt_succ_iff_lt_or_eq.mp hj with hj' | hj'
        · exact le_of_lt (lt_of_le_of_lt (hdom j hj') ((hb bv full[i]).mp hc))
        · rw [hj', hgetD]
      · rw [show bestIdxAux better (full[i] :: full.drop (i + 1)) i bi bv =
              bestIdxAux better (full.drop (i + 1)) (i + 1) bi bv by
            simp [bestIdxAux, hc]]
        refine ih (i + 1) bi bv (by omega) hbi hbv ?_
        intro j hj
        rcases Nat.lt_succ_iff_lt_or_eq.mp hj with hj' | hj'
        · exact hdom j hj'
        · rw [hj', hgetD]
          exact le_of_not_lt (fun hlt => hc ((hb bv full[i]).mpr hlt))

theorem bestIdx_spec {β : Type} [LinearOrder β] (κ : XQ → β) (better : XQ → XQ → Bool)
    (hb : ∀ a b, better a b = true ↔ κ a < κ b) (l : List XQ) (hl : l ≠ []) :
    bestIdx better l < l.length ∧
    ∀ j, j < l.length → κ (l.getD j XQ.nan) ≤ κ (l.getD (bestIdx better l) XQ.nan) := by
  match l, hl with
  | x :: xs, _ =>
      have h0 : (0 : ℕ) < (x :: xs).length := by simp
      have hdrop : (x :: xs).drop 1 = xs := rfl
      have hgetD : (x :: xs).getD 0 XQ.nan = x := rfl
      have := bestIdxAux_spec κ better hb (x :: xs) ((x :: xs).length - 1) 1 0 x rfl h0 hgetD
        (fun j hj => by interval_cases j; rw [hgetD])
      rw [hdrop] at this
      exact this

theorem not_all_nan_of_fin (l : List XQ) (j : ℕ) (hj : j < l.length)
    (hfin : (l.getD j XQ.nan).isFinB = true) : l.all XQ.isNan = false := by
  rw [getD_eq_getElem l XQ.nan hj] at hfin
  by_contra h
  have h' : l.all XQ.isNan = true := by
    cases hal : l.all XQ.isNan with
    | true => rfl
    | false => exact absurd hal h
  have := (List.all_eq_true.mp h') l[j] (List.getElem_mem hj)
  cases hx : l[j] <;> rw [hx] at hfin this <;> simp [XQ.isFinB, XQ.isNan] at hfin this

theorem valMax_fin_le_not_bot {x : XQ} {q : ℚ}
    (h : XQ.valMax (XQ.fin q) ≤ XQ.valMax x) : x ≠ XQ.nan ∧ x ≠ XQ.ninf := by
  cases x with
  | nan => exact absurd (le_bot_iff.mp h) WithBot.coe_ne_bot
  | ninf => exact absurd (le_bot_iff.mp h) WithBot.coe_ne_bot
  | pinf => exact ⟨fun hc => XQ.noConfusion hc, fun hc => XQ.noConfusion hc⟩
  | fin r => exact ⟨fun hc => XQ.noConfusion hc, fun hc => XQ.noConfusion hc⟩

theorem valMin_le_fin_not_top {x : XQ} {q : ℚ}
    (h : XQ.valMin x ≤ XQ.valMin (XQ.fin q)) : x ≠ XQ.nan ∧ x ≠ XQ.pinf := by
  cases x with
  | nan => exact absurd (WithBot.coe_le_coe.mp h) (WithTop.not_top_le_coe q)
  | pinf => exact absurd (WithBot.coe_le_coe.mp h) (WithTop.not_top_le_coe q)
  | ninf => exact ⟨fun hc => XQ.noConfusion hc, fun hc => XQ.noConfusion hc⟩
  | fin r => exact ⟨fun hc => XQ.noConfusion hc, fun hc => XQ.noConfusion hc⟩

theorem nanargmax_spec (l : List XQ) (j : ℕ) (hj : j < l.length)
    (hfin : (l.getD j XQ.nan).isFinB = true) :
    ∃ c : ℕ, nanargmax l = (c : ℤ) ∧ c < l.length ∧
      l.getD c XQ.nan ≠ XQ.nan ∧ l.getD c XQ.nan ≠ XQ.ninf ∧
      XQ.valMax (l.getD j XQ.nan) ≤ XQ.valMax (l.getD (c : ℕ) XQ.nan) := by
  have hall := not_all_nan_of_fin l j hj hfin
  have hne : l ≠ [] := by
    intro h; rw [h] at hj; simp at hj
  obtain ⟨hlt, hdom⟩ := bestIdx_spec XQ.valMax XQ.ltMax ltMax_iff l hne
  refine ⟨bestIdx XQ.ltMax l, by simp [nanargmax, hall], hlt, ?_⟩
  obtain ⟨q, hq⟩ : ∃ q, l.getD j XQ.nan = XQ.fin q := by
    cases hx : l.getD j XQ.nan <;> rw [hx] at hfin <;> simp [XQ.isFinB] at hfin ⊢
  have hd := hdom j hj
  rw [hq] at hd ⊢
  exact ⟨(valMax_fin_le_not_bot hd).1, (valMax_fin_le_not_bot hd).2, hd⟩

theorem nanargmin_spec (l : List XQ) (j : ℕ) (hj : j < l.length)
    (hfin : (l.getD j XQ.nan).isFinB = true) :
    ∃ c : ℕ, nanargmin l = (c : ℤ) ∧ c < l.length ∧
      l.getD c XQ.nan ≠ XQ.nan ∧ l.getD c XQ.nan ≠ XQ.pinf ∧
      XQ.valMin (l.getD (c : ℕ) XQ.nan) ≤ XQ.valMin (l.getD j XQ.nan) := by
  have hall := not_all_nan_of_fin l j hj hfin
  have hne : l ≠ [] := by
    intro h; rw [h] at hj; simp at hj
  have hb : ∀ a b : XQ, (fun bv x => XQ.ltMin x bv) a b = true ↔
      (fun x => OrderDual.toDual (XQ.valMin x)) a < (fun x => OrderDual.toDual (XQ.valMin x)) b := by
    intro a b
    simpa using ltMin_iff b a
  obtain ⟨hlt, hdom⟩ := bestIdx_spec (fun x => OrderDual.toDual (XQ.valMin x))
    (fun bv x => XQ.ltMin x bv) hb l hne
  refine ⟨bestIdx (fun bv x => XQ.ltMin x bv) l, by simp [nanargmin, hall], hlt, ?_⟩
  obtain ⟨q, hq⟩ : ∃ q, l.getD j XQ.nan = XQ.fin q := by
    cases hx : l.getD j XQ.nan <;> rw [hx] at hfin <;> simp [XQ.isFinB] at hfin ⊢
  have hd := hdom j hj
  simp only [OrderDual.toDual_le_toDual] at hd
  rw [hq] at hd ⊢
  exact ⟨(valMin_le_fin_not_top hd).1, (valMin_le_fin_not_top hd).2, hd⟩

theorem argminPlain_spec (l : List XQ) (j : ℕ) (hj : j < l.length)
    (hfin : (l.getD j XQ.nan).isFinB = true) :
    argminPlain l < l.length ∧ l.getD (argminPlain l) XQ.nan ≠ XQ.pinf ∧
    XQ.valMin (l.getD (argminPlain l) XQ.nan) ≤ XQ.valMin (l.getD j XQ.nan) := by
  have hne : l ≠ [] := by
    intro h; rw [h] at hj; simp at hj
  have hb : ∀ a b : XQ, (fun bv x => XQ.ltMin x bv) a b = true ↔
      (fun x => OrderDual.toDual (XQ.valMin x)) a < (fun x => OrderDual.toDual (XQ.valMin x)) b := by
    intro a b
    simpa using ltMin_iff b a
  obtain ⟨hlt, hdom⟩ := bestIdx_spec (fun x => OrderDual.toDual (XQ.valMin x))
    (fun bv x => XQ.ltMin x bv) hb l hne
  obtain ⟨q, hq⟩ : ∃ q, l.getD j XQ.nan = XQ.fin q := by
    cases hx : l.getD j XQ.nan <;> rw [hx] at hfin <;> simp [XQ.isFinB] at hfin ⊢
  have hd := hdom j hj
  simp only [OrderDual.toDual_le_toDual] at hd
  rw [hq] at hd
  refine ⟨hlt, ?_, by rw [hq]; exact hd⟩
  exact (valMin_le_fin_not_top (q := q) (by simpa [argminPlain] using hd)).2

/-! ### Scalar and scatter facts used by the engine invariant -/

theorem isFinB_iff {x : XQ} : x.isFinB = true ↔ ∃ q, x = XQ.fin q := by
  cases x <;> simp [XQ.isFinB]

theorem penok_of_fin {pen : ℕ → XQ} (h : ∀ j, (pen j).isFinB = true) : PenOk pen := by
  intro j
  obtain ⟨q, hq⟩ := isFinB_iff.mp (h j)
  rw [hq]
  exact ⟨fun hc => XQ.noConfusion hc, fun hc => XQ.noConfusion hc⟩

theorem isFinB_of_not {x : XQ} (h1 : x ≠ XQ.nan) (h2 : x ≠ XQ.ninf) (h3 : x ≠ XQ.pinf) :
    x.isFinB = true := by
  cases x <;> simp_all [XQ.isFinB]

theorem isFinB_ne_pinf {x : XQ} (h : x.isFinB = true) : x ≠ XQ.pinf := by
  obtain ⟨q, hq⟩ := isFinB_iff.mp h
  rw [hq]
  exact fun hc => XQ.noConfusion hc

theorem add_fin_penok {x : XQ} (u : ℚ) (hx : x ≠ XQ.nan ∧ x ≠ XQ.ninf) :
    XQ.add x (XQ.fin u) ≠ XQ.nan ∧ XQ.add x (XQ.fin u) ≠ XQ.ninf := by
  cases x <;> simp_all [XQ.add]

theorem add_fin_eq_pinf_iff {x : XQ} (u : ℚ) : XQ.add x (XQ.fin u) = XQ.pinf ↔ x = XQ.pinf := by
  cases x <;> simp [XQ.add]

theorem fset_at {n : ℕ} (pen : ℕ → XQ) {c : ℕ} (hc : c < n) (v : XQ) :
    fset n pen (c : ℤ) v c = v := by
  have hnl : ¬((c : ℤ) < 0) := by omega
  have hin : (0 : ℤ) ≤ (c : ℤ) ∧ (c : ℤ) < (n : ℤ) := by omega
  simp only [fset, if_neg hnl, if_pos hin, if_pos rfl]

theorem fset_ne {n : ℕ} (pen : ℕ → XQ) {c : ℕ} (hc : c < n) (v : XQ) {j : ℕ} (hj : j ≠ c) :
    fset n pen (c : ℤ) v j = pen j := by
  have hnl : ¬((c : ℤ) < 0) := by omega
  have hin : (0 : ℤ) ≤ (c : ℤ) ∧ (c : ℤ) < (n : ℤ) := by omega
  simp only [fset, if_neg hnl, if_pos hin]
  rw [if_neg (by exact_mod_cast hj)]

/-! ### Greedy engine invariant (unique = true) -/

theorem greedy_engine_invariant (k : ℕ → ℕ → ℚ) (w : List ℚ) (selF : ℕ → List XQ → ℤ)
    (hsel : SelFresh w selF) (m : ℕ) (hm : m ≤ posWeightCount w)
    (L : List ℤ) (hL : m ≤ L.length) (pen0 : ℕ → XQ) (hpen0 : ∀ j, (pen0 j).isFinB = true) :
    ∀ i, i ≤ m →
      ∃ selN : List ℕ,
        (iterate (greedyBody k w selF true) i (L, pen0)).1.length = L.length ∧
        (iterate (greedyBody k w selF true) i (L, pen0)).1.take i
          = selN.map (fun c : ℕ => (c : ℤ)) ∧
        selN.length = i ∧ selN.Nodup ∧
        (∀ c ∈ selN, c < w.length ∧ 0 < w.getD c 0) ∧
        (∀ c ∈ selN, (iterate (greedyBody k w selF true) i (L, pen0)).2 c = XQ.pinf) ∧
        PenOk (iterate (greedyBody k w selF true) i (L, pen0)).2 ∧
        (∀ j, (iterate (greedyBody k w selF true) i (L, pen0)).2 j = XQ.pinf → j ∈ selN) := by
  intro i
  induction i with
  | zero =>
      intro _
      refine ⟨[], rfl, by simp [iterate], rfl, List.nodup_nil, by simp, by simp,
        penok_of_fin hpen0, ?_⟩
      intro j hj
      exact absurd hj (isFinB_ne_pinf (hpen0 j))
  | succ i ih =>
      intro him
      obtain ⟨selN, hlen, htake, hslen, hnodup, hmem, hpinf, hok, hpinfmem⟩ :=
        ih (Nat.le_of_succ_le him)
      set st := iterate (greedyBody k w selF true) i (L, pen0) with hst
      -- a positive-weight point with finite penalty still exists
      have hsub : selN.toFinset ⊆ (Finset.range w.length).filter (fun j => 0 < w.getD j 0) := by
        intro c hc
        rw [List.mem_toFinset] at hc
        exact Finset.mem_filter.mpr ⟨Finset.mem_range.mpr (hmem c hc).1, (hmem c hc).2⟩
      have hcard : selN.toFinset.card = i := by
        rw [List.toFinset_card_of_nodup hnodup, hslen]
      have hnotsub :
          ¬((Finset.range w.length).filter (fun j => 0 < w.getD j 0) ⊆ selN.toFinset) := by
        intro hcon
        have := Finset.card_le_card hcon
        rw [hcard] at this
        exact absurd this (by unfold posWeightCount at hm; omega)
      obtain ⟨jw, hjw_mem, hjw_not⟩ := Finset.not_subset.mp hnotsub
      have hjw_lt : jw < w.length := Finset.mem_range.mp (Finset.mem_filter.mp hjw_mem).1
      have hjw_pos : 0 < w.getD jw 0 := (Finset.mem_filter.mp hjw_mem).2
      have hjw_fin : (st.2 jw).isFinB = true := by
        refine isFinB_of_not (hok jw).1 (hok jw).2 ?_
        intro hcon
        exact hjw_not (List.mem_toFinset.mpr (hpinfmem jw hcon))
      -- the selection function returns a fresh positive-weight index
      obtain ⟨c, hc_eq, hc_lt, hc_pos, hc_fin⟩ :=
        hsel i st.2 hok ⟨jw, hjw_lt, hjw_pos, hjw_fin⟩
      have hc_not_mem : c ∉ selN := by
        intro hcon
        rw [hpinf c hcon] at hc_fin
        exact absurd hc_fin (by simp [XQ.isFinB])
      have hstep : iterate (greedyBody k w selF true) (i + 1) (L, pen0)
          = greedyBody k w selF true i st := rfl
      have hbody : greedyBody k w selF true i st =
          (st.1.set i (c : ℤ),
           fset w.length
             (fun j => XQ.add (st.2 j) (XQ.fin (k j (zwrap w.length (c : ℤ))))) (c : ℤ)
             XQ.pinf) := by
        simp only [greedyBody, hc_eq]
        simp
      rw [hstep, hbody]
      have hiL : i < L.length := by omega
      have hiL' : i < st.1.length := by rw [hlen]; omega
      refine ⟨selN ++ [c], by simpa using hlen, ?_, by simp [hslen], ?_, ?_, ?_, ?_, ?_⟩
      · rw [take_succ_set st.1 i (c : ℤ) hiL', htake]
        simp
      · simp [List.nodup_append, hnodup, hc_not_mem]
      · intro x hx
        rcases List.mem_append.mp hx with hx | hx
        · exact hmem x hx
        · rw [List.mem_singleton.mp hx]
          exact ⟨hc_lt, hc_pos⟩
      · intro x hx
        dsimp only
        rcases List.mem_append.mp hx with hx | hx
        · have hxc : x ≠ c := fun hcon => hc_not_mem (hcon ▸ hx)
          rw [fset_ne _ hc_lt _ hxc]
          rw [show XQ.add (st.2 x) (XQ.fin (k x (zwrap w.length (c : ℤ)))) = XQ.pinf by
            rw [hpinf x hx]; rfl]
        · rw [List.mem_singleton.mp hx, fset_at _ hc_lt]
      · intro j
        dsimp only
        by_cases hjc : j = c
        · rw [hjc, fset_at _ hc_lt]
          exact ⟨fun hc => XQ.noConfusion hc, fun hc => XQ.noConfusion hc⟩
        · rw [fset_ne _ hc_lt _ hjc]
          exact add_fin_penok _ (hok j)
      · intro j hj
        dsimp only at hj
        by_cases hjc : j = c
        · simp [hjc]
        · rw [fset_ne _ hc_lt _ hjc] at hj
          exact List.mem_append.mpr (Or.inl (hpinfmem j ((add_fin_eq_pinf_iff _).mp hj)))

theorem greedy_selection_nodup_pos (k : ℕ → ℕ → ℚ) (w : List ℚ) (cs : Coresubset)
    (selF : ℕ → List XQ → ℤ) (m : ℕ) (hsel : SelFresh w selF)
    (hm : m ≤ posWeightCount w) :
    (greedyKernelSelection k w cs selF m true).Nodup ∧
    ∀ z ∈ greedyKernelSelection k w cs selF m true,
      ∃ c : ℕ, z = (c : ℤ) ∧ c < w.length ∧ 0 < w.getD c 0 := by
  have hL : m ≤ (cs.indices ++ List.replicate (max 0 (m - cs.indices.length)) 0).length := by
    rw [List.length_append, List.length_replicate, max_eq_right (Nat.zero_le _)]
    omega
  have hpen0 : ∀ j, ((fun j => XQ.fin (computeMeanAxis1 k w.length
      (cs.indices ++ List.replicate (max 0 (m - cs.indices.length)) 0)
      (cs.nodeWeights ++ List.replicate (max 0 (m - cs.indices.length)) 0) j)) j).isFinB
      = true := fun _ => rfl
  obtain ⟨selN, hlen, htake, hslen, hnodup, hmem, _, _, _⟩ :=
    greedy_engine_invariant k w selF hsel m hm
      (cs.indices ++ List.replicate (max 0 (m - cs.indices.length)) 0) hL
      (fun j => XQ.fin (computeMeanAxis1 k w.length
        (cs.indices ++ List.replicate (max 0 (m - cs.indices.length)) 0)
        (cs.nodeWeights ++ List.replicate (max 0 (m - cs.indices.length)) 0) j)) hpen0 m le_rfl
  have hsel_eq : greedyKernelSelection k w cs selF m true =
      selN.map (fun c : ℕ => (c : ℤ)) := by
    rw [← htake]
    rfl
  rw [hsel_eq]
  constructor
  · exact hnodup.map Nat.cast_injective
  · intro z hz
    obtain ⟨c, hc_mem, hc_eq⟩ := List.mem_map.mp hz
    exact ⟨c, hc_eq.symm, (hmem c hc_mem).1, (hmem c hc_mem).2⟩

/-! ### The concrete selection functions satisfy the freshness contract -/

theorem div_fin_pos {p d : ℚ} (hd : d ≠ 0) :
    XQ.div (XQ.fin p) (XQ.fin d) = XQ.fin (p / d) := by
  simp [XQ.div, hd]

theorem herding_selFresh (rowMean : List ℚ) (w : List ℚ) (hrm : rowMean.length = w.length) :
    SelFresh w (herdingSelectionFunction rowMean) := by
  rintro i pen hok ⟨j, hj, hw, hfin⟩
  set masked : List XQ := (List.range w.length).map
    (fun j => if 0 < w.getD j 0 then pen j else XQ.nan) with hmasked
  have hmlen : masked.length = w.length := by simp [hmasked]
  set values : List XQ := List.zipWith
    (fun g p => XQ.sub (XQ.fin g) (XQ.div p (XQ.fin ((i : ℚ) + 1)))) rowMean masked
    with hvalues
  have hvlen : values.length = w.length := by
    simp [hvalues, hmlen, hrm]
  have hval : ∀ x, x < w.length → values.getD x XQ.nan =
      XQ.sub (XQ.fin (rowMean.getD x 0))
        (XQ.div (if 0 < w.getD x 0 then pen x else XQ.nan) (XQ.fin ((i : ℚ) + 1))) := by
    intro x hx
    rw [hvalues, getD_zipWith _ rowMean masked (by omega) (by omega) XQ.nan 0 XQ.nan,
      hmasked, getD_map_range _ hx]
  have hd : ((i : ℚ) + 1) ≠ 0 := by positivity
  obtain ⟨p, hp⟩ := isFinB_iff.mp hfin
  have hjfin : (values.getD j XQ.nan).isFinB = true := by
    rw [hval j hj, if_pos hw, hp, div_fin_pos hd]
    rfl
  obtain ⟨c, hceq, hclt, hcnan, hcninf, _⟩ :=
    nanargmax_spec values j (by omega) hjfin
  have hclt' : c < w.length := by omega
  have hcval := hval c hclt'
  by_cases hcw : 0 < w.getD c 0
  · rw [if_pos hcw] at hcval
    rcases hpc : pen c with q | _ | _ | _
    · exact ⟨c, hceq, hclt', hcw, by rw [hpc]; rfl⟩
    · rw [hpc] at hcval
      rw [show XQ.div XQ.pinf (XQ.fin ((i : ℚ) + 1)) = XQ.pinf by
            simp [XQ.div]; positivity] at hcval
      simp only [XQ.sub, XQ.neg, XQ.add] at hcval
      exact absurd hcval hcninf
    · exact absurd hpc (hok c).2
    · exact absurd hpc (hok c).1
  · rw [if_neg hcw] at hcval
    simp only [XQ.sub, XQ.neg, XQ.add, XQ.div] at hcval
    exact absurd hcval hcnan

theorem stein_selFresh (sd lap rg : ℕ → ℚ) (w : List ℚ) :
    SelFresh w (steinSelectionFunction sd lap rg) := by
  rintro i pen hok ⟨j, hj, hw, hfin⟩
  set masked : List XQ := (List.range w.length).map
    (fun j => if 0 < w.getD j 0 then pen j else XQ.nan) with hmasked
  have hmlen : masked.length = w.length := by simp [hmasked]
  set values : List XQ := (masked.enum).map (fun p =>
    XQ.sub
      (XQ.add (XQ.add (XQ.fin (sd p.1)) (XQ.mul (XQ.fin 2) p.2)) (XQ.fin (lap p.1)))
      (XQ.fin ((i : ℚ) * rg p.1))) with hvalues
  have hvlen : values.length = w.length := by simp [hvalues, hmlen]
  have hval : ∀ x, x < w.length → values.getD x XQ.nan =
      XQ.sub
        (XQ.add (XQ.add (XQ.fin (sd x))
          (XQ.mul (XQ.fin 2) (if 0 < w.getD x 0 then pen x else XQ.nan)))
          (XQ.fin (lap x)))
        (XQ.fin ((i : ℚ) * rg x)) := by
    intro x hx
    rw [hvalues, getD_enum_map _ masked (by omega) XQ.nan XQ.nan,
      hmasked, getD_map_range _ hx]
  obtain ⟨p, hp⟩ := isFinB_iff.mp hfin
  have hjfin : (values.getD j XQ.nan).isFinB = true := by
    rw [hval j hj, if_pos hw, hp]
    simp [XQ.mul, XQ.add, XQ.sub, XQ.neg, XQ.isFinB]
  obtain ⟨c, hceq, hclt, hcnan, hcpinf, _⟩ :=
    nanargmin_spec values j (by omega) hjfin
  have hclt' : c < w.length := by omega
  have hcval := hval c hclt'
  by_cases hcw : 0 < w.getD c 0
  · rw [if_pos hcw] at hcval
    rcases hpc : pen c with q | _ | _ | _
    · exact ⟨c, hceq, hclt', hcw, by rw [hpc]; rfl⟩
    · rw [hpc] at hcval
      rw [show XQ.mul (XQ.fin 2) XQ.pinf = XQ.pinf by norm_num [XQ.mul]] at hcval
      simp only [XQ.add, XQ.sub, XQ.neg] at hcval
      exact absurd hcval hcpinf
    · exact absurd hpc (hok c).2
    · exact absurd hpc (hok c).1
  · rw [if_neg hcw] at hcval
    simp only [XQ.mul, XQ.add, XQ.sub, XQ.neg] at hcval
    exact absurd hcval hcnan

/-! ### Loop plumbing -/

theorem iterate_succ {α : Type} (body : ℕ → α → α) (m : ℕ) (s : α) :
    iterate body (m + 1) s = body m (iterate body m s) := rfl

theorem iterate_congr {α : Type} (b1 b2 : ℕ → α → α) (m : ℕ)
    (h : ∀ i, i < m → ∀ s, b1 i s = b2 i s) (s0 : α) :
    iterate b1 m s0 = iterate b2 m s0 := by
  induction m with
  | zero => rfl
  | succ m ih =>
      rw [iterate_succ, iterate_succ, ih (fun i hi s => h i (by omega) s), h m (by omega)]

theorem greedyBody_fst (k : ℕ → ℕ → ℚ) (w : List ℚ) (selF : ℕ → List XQ → ℤ)
    (unique : Bool) (i : ℕ) (s : List ℤ × (ℕ → XQ)) :
    (greedyBody k w selF unique i s).1 =
      s.1.set i (selF i ((List.range w.length).map
        (fun j => if 0 < w.getD j 0 then s.2 j else XQ.nan))) := rfl

theorem greedy_iterate_length (k : ℕ → ℕ → ℚ) (w : List ℚ) (selF : ℕ → List XQ → ℤ)
    (unique : Bool) (m : ℕ) (L : List ℤ) (pen0 : ℕ → XQ) :
    (iterate (greedyBody k w selF unique) m (L, pen0)).1.length = L.length := by
  induction m with
  | zero => rfl
  | succ m ih => rw [iterate_succ, greedyBody_fst, List.length_set, ih]

theorem greedyKernelSelection_length (k : ℕ → ℕ → ℚ) (w : List ℚ) (cs : Coresubset)
    (selF : ℕ → List XQ → ℤ) (m : ℕ) (unique : Bool) :
    (greedyKernelSelection k w cs selF m unique).length = m := by
  simp only [greedyKernelSelection]
  rw [List.length_take, greedy_iterate_length, List.length_append,
    List.length_replicate, max_eq_right (Nat.zero_le _)]
  omega

/-! ### RPCholesky uniqueness invariant -/

theorem rpcholesky_invariant (n m : ℕ) (k : ℕ → ℕ → ℚ) (sqrtQ : ℚ → ℚ)
    (foldIn : ℕ → ℕ → ℕ) (choiceP : ℕ → (ℕ → ℚ) → ℕ) (key : ℕ)
    (hchoice : ChoiceOk n choiceP) (g : ℕ → ℚ) (steps : ℕ)
    (hsteps : steps ≤ posEntryCount g n) (L : List ℤ) (hL : steps ≤ L.length) :
    ∀ i, i ≤ steps →
      ∃ selN : List ℕ,
        (iterate (rpcholeskyGreedyBody n m k sqrtQ foldIn choiceP key true) i
          ⟨g, fun _ _ => 0, L⟩).indices.length = L.length ∧
        (iterate (rpcholeskyGreedyBody n m k sqrtQ foldIn choiceP key true) i
          ⟨g, fun _ _ => 0, L⟩).indices.take i = selN.map (fun c : ℕ => (c : ℤ)) ∧
        selN.length = i ∧ selN.Nodup ∧
        (∀ c ∈ selN, c < n ∧ 0 < g c) ∧
        (∀ j, j ∈ selN →
          (iterate (rpcholeskyGreedyBody n m k sqrtQ foldIn choiceP key true) i
            ⟨g, fun _ _ => 0, L⟩).residual j = 0) ∧
        (∀ j, j ∉ selN →
          (iterate (rpcholeskyGreedyBody n m k sqrtQ foldIn choiceP key true) i
            ⟨g, fun _ _ => 0, L⟩).residual j = g j ∨
          (iterate (rpcholeskyGreedyBody n m k sqrtQ foldIn choiceP key true) i
            ⟨g, fun _ _ => 0, L⟩).residual j = max (g j) 0) ∧
        (∀ j c', i ≤ c' →
          (iterate (rpcholeskyGreedyBody n m k sqrtQ foldIn choiceP key true) i
            ⟨g, fun _ _ => 0, L⟩).approx j c' = 0) := by
  intro i
  induction i with
  | zero =>
      intro _
      exact ⟨[], rfl, by simp [iterate], rfl, List.nodup_nil, by simp, by simp,
        fun j _ => Or.inl rfl, fun j c' _ => rfl⟩
  | succ i ih =>
      intro him
      obtain ⟨selN, hlen, htake, hslen, hnodup, hmem, hzero, hfree, hcol⟩ :=
        ih (Nat.le_of_succ_le him)
      set st := iterate (rpcholeskyGreedyBody n m k sqrtQ foldIn choiceP key true) i
        ⟨g, fun _ _ => 0, L⟩ with hst
      -- a strictly positive residual entry still exists
      have hsub : selN.toFinset ⊆ (Finset.range n).filter (fun j => 0 < g j) := by
        intro c hc
        rw [List.mem_toFinset] at hc
        exact Finset.mem_filter.mpr ⟨Finset.mem_range.mpr (hmem c hc).1, (hmem c hc).2⟩
      have hcard : selN.toFinset.card = i := by
        rw [List.toFinset_card_of_nodup hnodup, hslen]
      have hnotsub : ¬((Finset.range n).filter (fun j => 0 < g j) ⊆ selN.toFinset) := by
        intro hcon
        have := Finset.card_le_card hcon
        rw [hcard] at this
        exact absurd this (by unfold posEntryCount at hsteps; omega)
      obtain ⟨jw, hjw_mem, hjw_not⟩ := Finset.not_subset.mp hnotsub
      have hjw_lt : jw < n := Finset.mem_range.mp (Finset.mem_filter.mp hjw_mem).1
      have hjw_pos : 0 < g jw := (Finset.mem_filter.mp hjw_mem).2
      have hjw_res : 0 < st.residual jw := by
        rcases hfree jw (fun hcon => hjw_not (List.mem_toFinset.mpr hcon)) with h | h
        · rw [h]; exact hjw_pos
        · rw [h]; exact lt_max_of_lt_left hjw_pos
      obtain ⟨hp_lt, hp_pos⟩ := hchoice (foldIn key i) st.residual ⟨jw, hjw_lt, hjw_res⟩
      set pivot := choiceP (foldIn key i) st.residual with hpivot
      have hp_not_mem : pivot ∉ selN := by
        intro hcon
        rw [hzero pivot hcon] at hp_pos
        exact lt_irrefl 0 hp_pos
      have hp_gpos : 0 < g pivot := by
        rcases hfree pivot hp_not_mem with h | h
        · rw [h] at hp_pos; exact hp_pos
        · rw [h] at hp_pos
          rcases max_cases (g pivot) 0 with ⟨he, _⟩ | ⟨he, _⟩
          · rw [he] at hp_pos; exact hp_pos
          · rw [he] at hp_pos; exact absurd hp_pos (lt_irrefl 0)
      have hiL : i < L.length := by omega
      have hiL' : i < st.indices.length := by rw [hlen]; omega
      rw [iterate_succ]
      have hbody : rpcholeskyGreedyBody n m k sqrtQ foldIn choiceP key true i st =
          ⟨fun j => if j = pivot then 0
                    else max (st.residual j - (st.approx j i) ^ 2) 0,
           fun j c => if c = i
                      then (k j pivot - rowDot m (st.approx j) (st.approx pivot)) /
                        sqrtQ (k pivot pivot - rowDot m (st.approx pivot) (st.approx pivot))
                      else st.approx j c,
           st.indices.set i (pivot : ℤ)⟩ := by
        simp only [rpcholeskyGreedyBody, ← hpivot]
        simp
      rw [hbody]
      refine ⟨selN ++ [pivot], by simpa using hlen, ?_, by simp [hslen], ?_, ?_, ?_, ?_, ?_⟩
      · dsimp only
        rw [take_succ_set st.indices i (pivot : ℤ) hiL', htake]
        simp
      · simp [List.nodup_append, hnodup, hp_not_mem]
      · intro x hx
        rcases List.mem_append.mp hx with hx | hx
        · exact hmem x hx
        · rw [List.mem_singleton.mp hx]
          exact ⟨hp_lt, hp_gpos⟩
      · intro j hj
        dsimp only
        rcases List.mem_append.mp hj with hj | hj
        · have hjp : j ≠ pivot := fun hcon => hp_not_mem (hcon ▸ hj)
          rw [if_neg hjp, hcol j i le_rfl, hzero j hj]
          norm_num
        · rw [List.mem_singleton.mp hj, if_pos rfl]
      · intro j hj
        dsimp only
        have hjsel : j ∉ selN := fun hcon => hj (List.mem_append.mpr (Or.inl hcon))
        have hjp : j ≠ pivot := fun hcon => hj (List.mem_append.mpr (Or.inr (by simp [hcon])))
        rw [if_neg hjp, hcol j i le_rfl]
        rcases hfree j hjsel with h | h
        · rw [h]
          right
          norm_num
        · rw [h]
          right
          rw [show max (g j) 0 - 0 ^ 2 = max (g j) 0 by norm_num]
          rw [max_assoc, max_self]
      · intro j c' hc'
        dsimp only
        rw [if_neg (by omega), hcol j c' (by omega)]

/-! ### GKIP uniqueness invariant -/

theorem getD_set_self {α : Type} (l : List α) {i : ℕ} (hi : i < l.length) (a : α) (d : α) :
    (l.set i a).getD i d = a := by
  rw [getD_eq_getElem _ _ (by simpa using hi)]
  exact List.getElem_set_self (by simpa using hi)

theorem getD_set_neq {α : Type} (l : List α) {i p : ℕ} (hip : i ≠ p) (a : α) (d : α) :
    (l.set i a).getD p d = l.getD p d := by
  rw [List.getD_eq_getElem?_getD, List.getD_eq_getElem?_getD, List.getElem?_set_ne hip]

theorem mem_of_mem_take {α : Type} {z : α} {l : List α} {i : ℕ} (h : z ∈ l.take i) :
    z ∈ l := (List.take_sublist i l).mem h

theorem gkip_invariant (n size : ℕ) (hsize : size ≤ n)
    (solve : List (List ℚ) → ℚ → List ℚ → (ℕ → ℕ → ℚ) → List ℚ)
    (pr : List ℚ) (pfg : ℕ → ℕ → ℚ) (reg : ℚ) (batch : List (List ℤ))
    (hrow : ∀ b, b < size → (batch.getD b []).length = n ∧
      (∀ j, j < n → (j : ℤ) ∈ batch.getD b []) ∧
      (∀ z ∈ batch.getD b [], ∃ c : ℕ, c < n ∧ z = (c : ℤ)))
    (ci0 : List ℤ) (hci0 : ci0.length = size) (id0 : ℕ → ℕ → ℚ) :
    ∀ i, i ≤ size →
      ∃ selN : List ℕ,
        (iterate (gkipGreedyBody n size n solve pr pfg reg true batch) i
          (ci0, id0, fun r => ci0.set 0 ((batch.getD 0 []).getD r (-1)))).1.length = size ∧
        (iterate (gkipGreedyBody n size n solve pr pfg reg true batch) i
          (ci0, id0, fun r => ci0.set 0 ((batch.getD 0 []).getD r (-1)))).1.take i
          = selN.map (fun c : ℕ => (c : ℤ)) ∧
        selN.length = i ∧ selN.Nodup ∧ (∀ c ∈ selN, c < n) ∧
        ∀ r, (iterate (gkipGreedyBody n size n solve pr pfg reg true batch) i
            (ci0, id0, fun r => ci0.set 0 ((batch.getD 0 []).getD r (-1)))).2.2 r =
          ((iterate (gkipGreedyBody n size n solve pr pfg reg true batch) i
            (ci0, id0, fun r => ci0.set 0 ((batch.getD 0 []).getD r (-1)))).1).set i
            ((batch.getD (min i (size - 1)) []).getD r (-1)) := by
  intro i
  induction i with
  | zero =>
      intro _
      refine ⟨[], hci0, by simp [iterate], rfl, List.nodup_nil, by simp, ?_⟩
      intro r
      simp [iterate, Nat.zero_min]
  | succ i ih =>
      intro him
      obtain ⟨selN, hlen, htake, hslen, hnodup, hmem, hcand⟩ := ih (Nat.le_of_succ_le him)
      set st := iterate (gkipGreedyBody n size n solve pr pfg reg true batch) i
        (ci0, id0, fun r => ci0.set 0 ((batch.getD 0 []).getD r (-1))) with hst
      have hi_lt : i < size := by omega
      have hmin : min i (size - 1) = i := by omega
      have hi_len : i < st.1.length := by omega
      obtain ⟨hrlen, hrcover, hrrange⟩ := hrow i hi_lt
      -- the masking target and the per-row candidate values in column i
      set T : List ℤ := st.1.set i (-1) with hT
      have hTlen : T.length = size := by rw [hT, List.length_set, hlen]
      have hbval : ∀ r, (st.2.2 r).getD i (-1) = (batch.getD i []).getD r (-1) := by
        intro r
        rw [hcand r, hmin, getD_set_self st.1 hi_len]
      -- some candidate row holds a value outside the current coreset
      have hneg_not : (-1 : ℤ) ∈ T := by
        have h1 : i < T.length := by omega
        have h2 : T.getD i 0 = -1 := by
          rw [hT, getD_set_self st.1 hi_len]
        rw [getD_eq_getElem T 0 h1] at h2
        exact List.mem_iff_getElem.mpr ⟨i, h1, h2⟩
      obtain ⟨cF, hcF_lt, hcF_not⟩ :
          ∃ cF : ℕ, cF < n ∧ (cF : ℤ) ∉ T := by
        by_contra hcon
        push_neg at hcon
        have hsub : (Finset.range n).image (fun c : ℕ => (c : ℤ)) ⊆ T.toFinset := by
          intro z hz
          obtain ⟨c, hc, hzc⟩ := Finset.mem_image.mp hz
          rw [← hzc]
          exact List.mem_toFinset.mpr (hcon c (Finset.mem_range.mp hc))
        have hsub' : insert (-1 : ℤ) ((Finset.range n).image (fun c : ℕ => (c : ℤ)))
            ⊆ T.toFinset := by
          intro z hz
          rcases Finset.mem_insert.mp hz with hz | hz
          · rw [hz]; exact List.mem_toFinset.mpr hneg_not
          · exact hsub hz
        have hcard1 : ((Finset.range n).image (fun c : ℕ => (c : ℤ))).card = n := by
          rw [Finset.card_image_of_injective _ (fun a b hab => by exact_mod_cast hab)]
          exact Finset.card_range n
        have hneg_notin : (-1 : ℤ) ∉ (Finset.range n).image (fun c : ℕ => (c : ℤ)) := by
          intro hcon'
          obtain ⟨c, _, hc⟩ := Finset.mem_image.mp hcon'
          omega
        have hcard2 := Finset.card_le_card hsub'
        rw [Finset.card_insert_of_not_mem hneg_notin, hcard1] at hcard2
        have := List.toFinset_card_le T
        omega
      obtain ⟨rw_idx, hrw_lt, hrw_val⟩ :
          ∃ rw_idx : ℕ, rw_idx < n ∧ (batch.getD i []).getD rw_idx (-1) = (cF : ℤ) := by
        obtain ⟨ridx, hridx, hval⟩ := List.mem_iff_getElem.mp (hrcover cF hcF_lt)
        exact ⟨ridx, by omega, by rw [getD_eq_getElem _ _ hridx, hval]⟩
      -- the loss row of any unmasked candidate is finite
      set lossX : List XQ := (List.range n).map (fun r =>
        if (st.2.2 r).getD i (-1) ∈ st.1.set i (-1) then XQ.pinf
        else XQ.fin (gkipCandidateLoss n solve pr pfg reg
          (fun a b => if a = i ∧ b = i then 1 else st.2.1 a b) (st.2.2 r))) with hlossX
      have hlossX_len : lossX.length = n := by simp [hlossX]
      have hlossX_at : ∀ r, r < n → lossX.getD r XQ.nan =
          if (st.2.2 r).getD i (-1) ∈ T then XQ.pinf
          else XQ.fin (gkipCandidateLoss n solve pr pfg reg
            (fun a b => if a = i ∧ b = i then 1 else st.2.1 a b) (st.2.2 r)) := by
        intro r hr
        rw [hlossX, getD_map_range _ hr, hT]
      have hwit_fin : (lossX.getD rw_idx XQ.nan).isFinB = true := by
        rw [hlossX_at rw_idx hrw_lt, hbval rw_idx, hrw_val, if_neg hcF_not]
        rfl
      obtain ⟨ha_lt, ha_npinf, _⟩ := argminPlain_spec lossX rw_idx (by omega) hwit_fin
      set amin := argminPlain lossX with hamin
      have hamin_lt : amin < n := by omega
      have ha_unmasked : (st.2.2 amin).getD i (-1) ∉ T := by
        intro hcon
        rw [hlossX_at amin hamin_lt, if_pos hcon] at ha_npinf
        exact ha_npinf rfl
      -- the chosen index is a fresh natural number below n
      obtain ⟨cN, hcN_lt, hcN_eq⟩ :
          ∃ cN : ℕ, cN < n ∧ (st.2.2 amin).getD i (-1) = (cN : ℤ) := by
        have hmem_row : (st.2.2 amin).getD i (-1) ∈ batch.getD i [] := by
          rw [hbval amin]
          rw [getD_eq_getElem _ _ (by omega : amin < (batch.getD i []).length)]
          exact List.getElem_mem _
        exact hrrange _ hmem_row
      have hfresh : ∀ z ∈ st.1.take i, (st.2.2 amin).getD i (-1) ≠ z := by
        intro z hz hcon
        apply ha_unmasked
        rw [hcon, hT]
        have hz' : z ∈ (st.1.set i (-1)).take i := by
          rw [take_set_of_le st.1 i i (-1) le_rfl]
          exact hz
        exact mem_of_mem_take hz'
      -- unfold one loop step
      have hstep : iterate (gkipGreedyBody n size n solve pr pfg reg true batch) (i + 1)
          (ci0, id0, fun r => ci0.set 0 ((batch.getD 0 []).getD r (-1)))
          = gkipGreedyBody n size n solve pr pfg reg true batch i st := rfl
      have hbody : gkipGreedyBody n size n solve pr pfg reg true batch i st =
          (st.1.set i ((st.2.2 amin).getD i (-1)),
           fun a b => if a = i ∧ b = i then 1 else st.2.1 a b,
           fun r => (((st.2.2 r).set i ((st.2.2 amin).getD i (-1))).set (i + 1)
             ((batch.getD (min (i + 1) (size - 1)) []).getD r (-1)))) := by
        simp only [gkipGreedyBody, hamin, hlossX]
        simp
      rw [hstep, hbody]
      refine ⟨selN ++ [cN], by simpa using hlen, ?_, by simp [hslen], ?_, ?_, ?_⟩
      · dsimp only
        rw [take_succ_set st.1 i _ hi_len, htake, hcN_eq]
        simp
      · have hcN_not : cN ∉ selN := by
          intro hcon
          have : (cN : ℤ) ∈ st.1.take i := by
            rw [htake]
            exact List.mem_map.mpr ⟨cN, hcon, rfl⟩
          exact hfresh _ this hcN_eq
        simp [List.nodup_append, hnodup, hcN_not]
      · intro x hx
        rcases List.mem_append.mp hx with hx | hx
        · exact hmem x hx
        · rw [List.mem_singleton.mp hx]
          exact hcN_lt
      · intro r
        dsimp only
        rw [hcand r, hmin]
        rw [List.set_set]

/-! ### Solver-level evaluation lemmas -/

theorem initialCoresubset_eval (fill : ℤ) (size n : ℕ) :
    initialCoresubset fill size n =
      if size > n then Except.error sizingMSG
      else Except.ok ⟨List.replicate size fill, List.replicate size 0⟩ := by
  unfold initialCoresubset coresubsetNew
  rw [List.length_replicate]
  by_cases h : n < size
  · simp [h]
  · simp [h, show ¬size > n from h]

theorem gramianRowMean_length (k : ℕ → ℕ → ℚ) (n : ℕ) :
    (gramianRowMean k n).length = n := by
  simp [gramianRowMean]

theorem randomSampleReduce_eval (key n size : ℕ) (unique : Bool) :
    randomSampleReduce key n size unique =
      if (!unique) = false ∧ n < size then
        (if size > n ∧ unique = true then Except.error sizingMSG
         else Except.error
           "cannot take a larger sample than population when replace is False")
      else if n < size then
        (if size > n ∧ unique = true then Except.error sizingMSG
         else Except.error
           "cannot construct a coresubset with more indices than data points")
      else
        Except.ok ⟨(List.range size).map (fun i => (((key + i) % max n 1 : ℕ) : ℤ)),
          List.replicate size 1⟩ := by
  unfold randomSampleReduce jrChoice coresubsetNew
  by_cases h1 : (!unique) = false ∧ n < size
  · rw [if_pos h1, if_pos h1]
  · rw [if_neg h1, if_neg h1]
    dsimp only
    rw [List.length_map, List.length_range]
    by_cases h2 : n < size
    · rw [if_pos h2, if_pos h2]
    · rw [if_neg h2, if_neg h2]

theorem rpcBody_indices (n m : ℕ) (k : ℕ → ℕ → ℚ) (sqrtQ : ℚ → ℚ)
    (foldIn : ℕ → ℕ → ℕ) (choiceP : ℕ → (ℕ → ℚ) → ℕ) (key : ℕ) (unique : Bool)
    (i : ℕ) (st : RPCState) :
    ∃ z : ℤ, (rpcholeskyGreedyBody n m k sqrtQ foldIn choiceP key unique i st).indices
      = st.indices.set i z := by
  unfold rpcholeskyGreedyBody
  exact ⟨_, rfl⟩

theorem rpc_iterate_length (n m : ℕ) (k : ℕ → ℕ → ℚ) (sqrtQ : ℚ → ℚ)
    (foldIn : ℕ → ℕ → ℕ) (choiceP : ℕ → (ℕ → ℚ) → ℕ) (key : ℕ) (unique : Bool)
    (steps : ℕ) (init : RPCState) :
    (iterate (rpcholeskyGreedyBody n m k sqrtQ foldIn choiceP key unique) steps
      init).indices.length = init.indices.length := by
  induction steps with
  | zero => rfl
  | succ s ih =>
      rw [iterate_succ]
      obtain ⟨z, hz⟩ := rpcBody_indices n m k sqrtQ foldIn choiceP key unique s
        (iterate (rpcholeskyGreedyBody n m k sqrtQ foldIn choiceP key unique) s init)
      rw [hz, List.length_set, ih]

theorem rpcholeskyReduce_ok (k : ℕ → ℕ → ℚ) (sqrtQ : ℚ → ℚ) (foldIn : ℕ → ℕ → ℕ)
    (choiceP : ℕ → (ℕ → ℚ) → ℕ) (key n size : ℕ) (unique : Bool)
    (state : Option (ℕ → ℚ)) (h : size ≤ n) :
    rpcholeskyReduce k sqrtQ foldIn choiceP key n size unique state =
      Except.ok
        ((iterate (rpcholeskyGreedyBody n size k sqrtQ foldIn choiceP key unique) size
          ⟨state.getD (fun i => k i i), fun _ _ => 0, List.replicate size 0⟩).indices,
         state.getD (fun i => k i i)) := by
  unfold rpcholeskyReduce
  rw [initialCoresubset_eval, if_neg (by omega)]
  rfl

theorem sampleBatchIndices_ok (perm : ℕ → List ℤ) (split : ℕ → ℕ → ℕ)
    (key maxIndex batchSize numBatches : ℕ) (h : batchSize ≤ maxIndex) :
    sampleBatchIndices perm split key maxIndex batchSize numBatches =
      Except.ok ((List.range numBatches).map
        (fun b => (perm (split key b)).take batchSize)) := by
  unfold sampleBatchIndices
  rw [if_neg (by omega)]

theorem coresubsetNew_ok (idx : List ℤ) (nw : List ℚ) (n : ℕ) (h : idx.length ≤ n) :
    coresubsetNew idx nw n = Except.ok ⟨idx, nw⟩ := by
  unfold coresubsetNew
  rw [if_neg (by omega)]

theorem gkipBody_indices (n cS bS : ℕ)
    (solve : List (List ℚ) → ℚ → List ℚ → (ℕ → ℕ → ℚ) → List ℚ)
    (pr : List ℚ) (pfg : ℕ → ℕ → ℚ) (reg : ℚ) (unique : Bool) (batch : List (List ℤ))
    (i : ℕ) (s : List ℤ × (ℕ → ℕ → ℚ) × (ℕ → List ℤ)) :
    ∃ z : ℤ, (gkipGreedyBody n cS bS solve pr pfg reg unique batch i s).1
      = s.1.set i z := by
  unfold gkipGreedyBody
  exact ⟨_, rfl⟩

theorem gkip_iterate_length (n cS bS : ℕ)
    (solve : List (List ℚ) → ℚ → List ℚ → (ℕ → ℕ → ℚ) → List ℚ)
    (pr : List ℚ) (pfg : ℕ → ℕ → ℚ) (reg : ℚ) (unique : Bool) (batch : List (List ℤ))
    (steps : ℕ) (init : List ℤ × (ℕ → ℕ → ℚ) × (ℕ → List ℤ)) :
    (iterate (gkipGreedyBody n cS bS solve pr pfg reg unique batch) steps
      init).1.length = init.1.length := by
  induction steps with
  | zero => rfl
  | succ s ih =>
      rw [iterate_succ]
      obtain ⟨z, hz⟩ := gkipBody_indices n cS bS solve pr pfg reg unique batch s
        (iterate (gkipGreedyBody n cS bS solve pr pfg reg unique batch) s init)
      rw [hz, List.length_set, ih]

theorem gkipClipIndices_length (size : ℕ) (idx : List ℤ) :
    (gkipClipIndices size idx).2.length = size := by
  unfold gkipClipIndices
  split_ifs with h1 h2
  · dsimp only
    rw [List.length_append, List.length_replicate, max_eq_right (Nat.zero_le _)]
    omega
  · dsimp only
    rw [List.length_take]
    omega
  · dsimp only
    omega

theorem gkipClipIndices_oversized (size : ℕ) (idx : List ℤ) (h : size < idx.length) :
    gkipClipIndices size idx = ([sizeWarningMsg], idx.take size) := by
  unfold gkipClipIndices
  rw [if_neg (by omega), if_pos h]

theorem gkipRefine_eval (n : ℕ) (fk : ℕ → ℕ → ℚ) (resp : List ℚ)
    (solve : List (List ℚ) → ℚ → List ℚ → (ℕ → ℕ → ℚ) → List ℚ) (reg : ℚ)
    (unique : Bool) (perm : ℕ → List ℤ) (split : ℕ → ℕ → ℕ) (key size : ℕ)
    (cs : Coresubset) (state : Option (ℕ → ℕ → ℚ)) (hsz : size ≤ n) :
    gkipRefine n fk resp solve reg unique none perm split key size cs state =
      Except.ok
        ⟨(gkipClipIndices size cs.indices).1,
         (iterate
            (gkipGreedyBody n size n solve (resp ++ [0])
              (state.getD (paddedGramianOf n fk)) reg unique
              ((List.range size).map (fun b => (perm (split key b)).take n)))
            size
            ((gkipClipIndices size cs.indices).2,
             fun a b => if a = b then
               (if sentinelIdx n ((gkipClipIndices size cs.indices).2.getD a (-1)) < n
                then (1 : ℚ) else 0) else 0,
             fun r => (gkipClipIndices size cs.indices).2.set 0
               ((((List.range size).map
                 (fun b => (perm (split key b)).take n)).getD 0 []).getD r (-1)))).1⟩ := by
  simp only [gkipRefine]
  rw [sampleBatchIndices_ok perm split key n n size le_rfl]
  split
  · rename_i e heqb
    exact Except.noConfusion heqb
  · rename_i batchIndices heqb
    injection heqb with hbeq
    subst hbeq
    split
    · rename_i e heq
      unfold coresubsetNew at heq
      simp only [gkip_iterate_length, gkipClipIndices_length] at heq
      rw [if_neg (by omega)] at heq
      exact Except.noConfusion heq
    · rename_i updated heq
      unfold coresubsetNew at heq
      simp only [gkip_iterate_length, gkipClipIndices_length] at heq
      rw [if_neg (by omega)] at heq
      injection heq with h2
      subst h2
      rfl

theorem gkipRefine_ok_length (n : ℕ) (fk : ℕ → ℕ → ℚ) (resp : List ℚ)
    (solve : List (List ℚ) → ℚ → List ℚ → (ℕ → ℕ → ℚ) → List ℚ) (reg : ℚ)
    (unique : Bool) (bso : Option ℕ) (perm : ℕ → List ℤ) (split : ℕ → ℕ → ℕ)
    (key size : ℕ) (cs : Coresubset) (state : Option (ℕ → ℕ → ℚ)) (hsz : size ≤ n) :
    ∃ r, gkipRefine n fk resp solve reg unique bso perm split key size cs state
        = Except.ok r ∧
      r.warnings = (gkipClipIndices size cs.indices).1 ∧ r.indices.length = size := by
  rcases bso with _ | b
  · simp only [gkipRefine]
    rw [sampleBatchIndices_ok perm split key n n size le_rfl]
    split
    · rename_i e heqb
      exact Except.noConfusion heqb
    · rename_i batchIndices heqb
      injection heqb with hbeq
      subst hbeq
      split
      · rename_i e heq
        unfold coresubsetNew at heq
        simp only [gkip_iterate_length, gkipClipIndices_length] at heq
        rw [if_neg (by omega)] at heq
        exact Except.noConfusion heq
      · rename_i updated heq
        unfold coresubsetNew at heq
        simp only [gkip_iterate_length, gkipClipIndices_length] at heq
        rw [if_neg (by omega)] at heq
        injection heq with h2
        subst h2
        exact ⟨_, rfl, rfl,
          by dsimp only; rw [gkip_iterate_length]; exact gkipClipIndices_length _ _⟩
  · simp only [gkipRefine]
    by_cases hb : b < n
    · rw [if_pos hb, sampleBatchIndices_ok perm split key n b size (by omega)]
      split
      · rename_i e heqb
        exact Except.noConfusion heqb
      · rename_i batchIndices heqb
        injection heqb with hbeq
        subst hbeq
        split
        · rename_i e heq
          unfold coresubsetNew at heq
          simp only [gkip_iterate_length, gkipClipIndices_length] at heq
          rw [if_neg (by omega)] at heq
          exact Except.noConfusion heq
        · rename_i updated heq
          unfold coresubsetNew at heq
          simp only [gkip_iterate_length, gkipClipIndices_length] at heq
          rw [if_neg (by omega)] at heq
          injection heq with h2
          subst h2
          exact ⟨_, rfl, rfl,
            by dsimp only; rw [gkip_iterate_length]; exact gkipClipIndices_length _ _⟩
    · rw [if_neg hb, sampleBatchIndices_ok perm split key n n size le_rfl]
      split
      · rename_i e heqb
        exact Except.noConfusion heqb
      · rename_i batchIndices heqb
        injection heqb with hbeq
        subst hbeq
        split
        · rename_i e heq
          unfold coresubsetNew at heq
          simp only [gkip_iterate_length, gkipClipIndices_length] at heq
          rw [if_neg (by omega)] at heq
          exact Except.noConfusion heq
        · rename_i updated heq
          unfold coresubsetNew at heq
          simp only [gkip_iterate_length, gkipClipIndices_length] at heq
          rw [if_neg (by omega)] at heq
          injection heq with h2
          subst h2
          exact ⟨_, rfl, rfl,
            by dsimp only; rw [gkip_iterate_length]; exact gkipClipIndices_length _ _⟩

theorem gkipRefine_length_of_ok (n : ℕ) (fk : ℕ → ℕ → ℚ) (resp : List ℚ)
    (solve : List (List ℚ) → ℚ → List ℚ → (ℕ → ℕ → ℚ) → List ℚ) (reg : ℚ)
    (unique : Bool) (bso : Option ℕ) (perm : ℕ → List ℤ) (split : ℕ → ℕ → ℕ)
    (key size : ℕ) (cs : Coresubset) (state : Option (ℕ → ℕ → ℚ)) (r : GKIPResult)
    (hr : gkipRefine n fk resp solve reg unique bso perm split key size cs state
        = Except.ok r) :
    r.indices.length = size := by
  rcases bso with _ | b
  · simp only [gkipRefine] at hr
    rw [sampleBatchIndices_ok perm split key n n size le_rfl] at hr
    split at hr
    · rename_i e heqb
      exact Except.noConfusion heqb
    · rename_i batchIndices heqb
      injection heqb with hbeq
      subst hbeq
      split at hr
      · exact Except.noConfusion hr
      · rename_i updated heq
        unfold coresubsetNew at heq
        split_ifs at heq with hcond
        injection heq with h2
        subst h2
        injection hr with h3
        rw [← h3]
        dsimp only
        rw [gkip_iterate_length]
        exact gkipClipIndices_length _ _
  · simp only [gkipRefine] at hr
    by_cases hb : b < n
    · rw [if_pos hb, sampleBatchIndices_ok perm split key n b size (by omega)] at hr
      split at hr
      · rename_i e heqb
        exact Except.noConfusion heqb
      · rename_i batchIndices heqb
        injection heqb with hbeq
        subst hbeq
        split at hr
        · exact Except.noConfusion hr
        · rename_i updated heq
          unfold coresubsetNew at heq
          split_ifs at heq with hcond
          injection heq with h2
          subst h2
          injection hr with h3
          rw [← h3]
          dsimp only
          rw [gkip_iterate_length]
          exact gkipClipIndices_length _ _
    · rw [if_neg hb, sampleBatchIndices_ok perm split key n n size le_rfl] at hr
      split at hr
      · rename_i e heqb
        exact Except.noConfusion heqb
      · rename_i batchIndices heqb
        injection heqb with hbeq
        subst hbeq
        split at hr
        · exact Except.noConfusion hr
        · rename_i updated heq
          unfold coresubsetNew at heq
          split_ifs at heq with hcond
          injection heq with h2
          subst h2
          injection hr with h3
          rw [← h3]
          dsimp only
          rw [gkip_iterate_length]
          exact gkipClipIndices_length _ _

/-! ### Claim theorems -/

/-- C3 (amended): for every solver constructed with `unique = true` the
returned index array contains no duplicates, provided enough selectable
candidates exist: for KernelHerding and SteinThinning at least `coreset_size`
dataset points of strictly positive weight (the counterexample shows a
zero-weight point breaks the property as originally stated); for RPCholesky a
faithful zero-mass-avoiding pivot sampler, at least `coreset_size` strictly
positive Gramian-diagonal entries, and `coreset_size ≤ n`; for
GreedyKernelInducingPoints a faithful permutation sampler, full-batch search
(`batch_size = None`), and `coreset_size ≤ n`. -/
theorem unique_solvers_nodup_amended :
    (∀ (k : ℕ → ℕ → ℚ) (w : List ℚ) (size : ℕ) (cs : Coresubset) (st : Option (List ℚ)),
      (st.getD (gramianRowMean k w.length)).length = w.length →
      size ≤ posWeightCount w →
      ((kernelHerdingRefine k w size true cs st).1).Nodup) ∧
    (∀ (k ks : ℕ → ℕ → ℚ) (lap lpdf : ℕ → ℚ) (w : List ℚ) (size : ℕ)
      (reg : Bool) (cs : Coresubset),
      size ≤ posWeightCount w →
      (steinThinningRefine k ks lap lpdf w size true reg cs).Nodup) ∧
    (∀ (k : ℕ → ℕ → ℚ) (sqrtQ : ℚ → ℚ) (foldIn : ℕ → ℕ → ℕ)
      (choiceP : ℕ → (ℕ → ℚ) → ℕ) (key n size : ℕ) (st : Option (ℕ → ℚ)),
      ChoiceOk n choiceP → size ≤ posEntryCount (st.getD (fun i => k i i)) n →
      size ≤ n →
      ∀ out, rpcholeskyReduce k sqrtQ foldIn choiceP key n size true st = Except.ok out →
        out.1.Nodup) ∧
    (∀ (n : ℕ) (fk : ℕ → ℕ → ℚ) (resp : List ℚ)
      (solve : List (List ℚ) → ℚ → List ℚ → (ℕ → ℕ → ℚ) → List ℚ) (reg : ℚ)
      (perm : ℕ → List ℤ) (split : ℕ → ℕ → ℕ) (key size : ℕ) (cs : Coresubset)
      (state : Option (ℕ → ℕ → ℚ)),
      PermCover n perm → size ≤ n →
      ∀ r, gkipRefine n fk resp solve reg true none perm split key size cs state
          = Except.ok r →
        r.indices.Nodup) := by
  refine ⟨?_, ?_, ?_, ?_⟩
  · intro k w size cs st hrm hm
    exact (greedy_selection_nodup_pos k w cs
      (herdingSelectionFunction (st.getD (gramianRowMean k w.length))) size
      (herding_selFresh _ w hrm) hm).1
  · intro k ks lap lpdf w size reg cs hm
    exact (greedy_selection_nodup_pos k w cs
      (steinSelectionFunction (fun i => k i i)
        (if reg then lap else fun _ => 0)
        (if reg then (fun i => (1 / (cs.indices.length : ℚ)) * lpdf i) else fun _ => 0))
      size (stein_selFresh _ _ _ w) hm).1
  · intro k sqrtQ foldIn choiceP key n size st hchoice hcount hn out hout
    rw [rpcholeskyReduce_ok k sqrtQ foldIn choiceP key n size true st hn] at hout
    obtain ⟨selN, hlen, htake, _, hnodup, _, _, _, _⟩ :=
      rpcholesky_invariant n size k sqrtQ foldIn choiceP key hchoice
        (st.getD (fun i => k i i)) size hcount (List.replicate size 0) (by simp)
        size le_rfl
    have hout1 : out.1 =
        (iterate (rpcholeskyGreedyBody n size k sqrtQ foldIn choiceP key true) size
          ⟨st.getD (fun i => k i i), fun _ _ => 0, List.replicate size 0⟩).indices := by
      cases hout
      rfl
    have houtlen : out.1.length = size := by
      rw [hout1, rpc_iterate_length]
      simp
    have hfull : out.1.take size = out.1 := List.take_of_length_le (le_of_eq houtlen)
    rw [← hfull, hout1, htake]
    exact hnodup.map Nat.cast_injective
  · intro n fk resp solve reg perm split key size cs state hperm hsize r hr
    rw [gkipRefine_eval n fk resp solve reg true perm split key size cs state hsize] at hr
    have hrow : ∀ b, b < size →
        (((List.range size).map (fun b => (perm (split key b)).take n)).getD b []).length
          = n ∧
        (∀ j, j < n →
          (j : ℤ) ∈ ((List.range size).map (fun b => (perm (split key b)).take n)).getD b []) ∧
        (∀ z ∈ ((List.range size).map (fun b => (perm (split key b)).take n)).getD b [],
          ∃ c : ℕ, c < n ∧ z = (c : ℤ)) := by
      intro b hb
      rw [getD_map_range _ hb]
      obtain ⟨hl, hc, hrange⟩ := hperm (split key b)
      rw [List.take_of_length_le (le_of_eq hl)]
      exact ⟨hl, hc, hrange⟩
    obtain ⟨selN, hlen, htake, _, hnodup, _, _⟩ :=
      gkip_invariant n size hsize solve (resp ++ [0]) (state.getD (paddedGramianOf n fk))
        reg ((List.range size).map (fun b => (perm (split key b)).take n)) hrow
        (gkipClipIndices size cs.indices).2 (gkipClipIndices_length size cs.indices)
        (fun a b => if a = b then
          (if sentinelIdx n ((gkipClipIndices size cs.indices).2.getD a (-1)) < n
           then (1 : ℚ) else 0) else 0) size le_rfl
    have hri : r.indices =
        (iterate (gkipGreedyBody n size n solve (resp ++ [0])
          (state.getD (paddedGramianOf n fk)) reg true
          ((List.range size).map (fun b => (perm (split key b)).take n))) size
          ((gkipClipIndices size cs.indices).2,
           fun a b => if a = b then
             (if sentinelIdx n ((gkipClipIndices size cs.indices).2.getD a (-1)) < n
              then (1 : ℚ) else 0) else 0,
           fun r => (gkipClipIndices size cs.indices).2.set 0
             ((((List.range size).map
               (fun b => (perm (split key b)).take n)).getD 0 []).getD r (-1)))).1 := by
      cases hr
      rfl
    have hrl : r.indices.length = size := by
      rw [hri, gkip_iterate_length]
      exact gkipClipIndices_length size cs.indices
    have hfull : r.indices.take size = r.indices := List.take_of_length_le (le_of_eq hrl)
    rw [← hfull, hri, htake]
    exact hnodup.map Nat.cast_injective

/-- C10 (amended): in the shared greedy engine used by KernelHerding and
SteinThinning the per-iteration candidate mask is computed from the full
dataset's weights (the coresubset's node weights `cs.nodeWeights` are
quantified arbitrarily and do not matter), and no index of non-positive
weight is ever written into the returned coresubset — provided at least
`coreset_size` positive-weight points exist, not merely one, as the
counterexample shows. -/
theorem zero_weight_points_never_selected_amended :
    (∀ (k : ℕ → ℕ → ℚ) (w : List ℚ) (size : ℕ) (cs : Coresubset) (st : Option (List ℚ)),
      (st.getD (gramianRowMean k w.length)).length = w.length →
      size ≤ posWeightCount w →
      ∀ z ∈ (kernelHerdingRefine k w size true cs st).1,
        ∃ c : ℕ, z = (c : ℤ) ∧ c < w.length ∧ 0 < w.getD c 0) ∧
    (∀ (k ks : ℕ → ℕ → ℚ) (lap lpdf : ℕ → ℚ) (w : List ℚ) (size : ℕ)
      (reg : Bool) (cs : Coresubset),
      size ≤ posWeightCount w →
      ∀ z ∈ steinThinningRefine k ks lap lpdf w size true reg cs,
        ∃ c : ℕ, z = (c : ℤ) ∧ c < w.length ∧ 0 < w.getD c 0) := by
  constructor
  · intro k w size cs st hrm hm
    exact (greedy_selection_nodup_pos k w cs
      (herdingSelectionFunction (st.getD (gramianRowMean k w.length))) size
      (herding_selFresh _ w hrm) hm).2
  · intro k ks lap lpdf w size reg cs hm
    exact (greedy_selection_nodup_pos k w cs
      (steinSelectionFunction (fun i => k i i)
        (if reg then lap else fun _ => 0)
        (if reg then (fun i => (1 / (cs.indices.length : ℚ)) * lpdf i) else fun _ => 0))
      size (stein_selFresh _ _ _ w) hm).2

/-- C4: whenever a solver returns a coresubset, its index array has length
exactly `coreset_size`, regardless of the length of any input coresubset
passed to `refine`: the shared engine pads short inputs and slices its result
to `output_size`; GKIP pads or truncates explicitly (and its final
`Coresubset` wrap, which can only fail, never alters the refined index
array); RPCholesky and RandomSample build their index arrays at size
`coreset_size` directly. -/
theorem solver_output_length_eq_coreset_size :
    (∀ (k : ℕ → ℕ → ℚ) (w : List ℚ) (size : ℕ) (unique : Bool) (cs : Coresubset)
      (st : Option (List ℚ)),
      ((kernelHerdingRefine k w size unique cs st).1).length = size) ∧
    (∀ (k ks : ℕ → ℕ → ℚ) (lap lpdf : ℕ → ℚ) (w : List ℚ) (size : ℕ)
      (unique reg : Bool) (cs : Coresubset),
      (steinThinningRefine k ks lap lpdf w size unique reg cs).length = size) ∧
    (∀ (k : ℕ → ℕ → ℚ) (sqrtQ : ℚ → ℚ) (foldIn : ℕ → ℕ → ℕ)
      (choiceP : ℕ → (ℕ → ℚ) → ℕ) (key n size : ℕ) (unique : Bool)
      (st : Option (ℕ → ℚ)) (out : List ℤ × (ℕ → ℚ)),
      rpcholeskyReduce k sqrtQ foldIn choiceP key n size unique st = Except.ok out →
      out.1.length = size) ∧
    (∀ (n : ℕ) (fk : ℕ → ℕ → ℚ) (resp : List ℚ)
      (solve : List (List ℚ) → ℚ → List ℚ → (ℕ → ℕ → ℚ) → List ℚ) (reg : ℚ)
      (unique : Bool) (bso : Option ℕ) (perm : ℕ → List ℤ) (split : ℕ → ℕ → ℕ)
      (key size : ℕ) (cs : Coresubset) (state : Option (ℕ → ℕ → ℚ)) (r : GKIPResult),
      gkipRefine n fk resp solve reg unique bso perm split key size cs state
          = Except.ok r → r.indices.length = size) ∧
    (∀ (key n size : ℕ) (unique : Bool) (c : Coresubset),
      randomSampleReduce key n size unique = Except.ok c → c.indices.length = size) := by
  refine ⟨?_, ?_, ?_, ?_, ?_⟩
  · intro k w size unique cs st
    exact greedyKernelSelection_length k w cs _ size unique
  · intro k ks lap lpdf w size unique reg cs
    exact greedyKernelSelection_length k w cs _ size unique
  · intro k sqrtQ foldIn choiceP key n size unique st out hout
    unfold rpcholeskyReduce at hout
    rw [initialCoresubset_eval] at hout
    by_cases h : size > n
    · rw [if_pos h] at hout
      exact absurd hout (by simp [Except.map])
    · rw [if_neg h] at hout
      have : out = ((iterate (rpcholeskyGreedyBody n size k sqrtQ foldIn choiceP key unique)
          size ⟨st.getD (fun i => k i i), fun _ _ => 0, List.replicate size 0⟩).indices,
          st.getD (fun i => k i i)) := by
        rw [show ((Except.ok ⟨List.replicate size 0, List.replicate size 0⟩ :
            Except String Coresubset).map (fun cs =>
              ((iterate (rpcholeskyGreedyBody n size k sqrtQ foldIn choiceP key unique)
                size ⟨st.getD (fun i => k i i), fun _ _ => 0, cs.indices⟩).indices,
               st.getD (fun i => k i i)))) =
            Except.ok ((iterate (rpcholeskyGreedyBody n size k sqrtQ foldIn choiceP key
              unique) size ⟨st.getD (fun i => k i i), fun _ _ => 0,
              List.replicate size 0⟩).indices, st.getD (fun i => k i i)) from rfl] at hout
        cases hout
        rfl
      rw [this]
      rw [rpc_iterate_length]
      simp
  · intro n fk resp solve reg unique bso perm split key size cs state r hr
    exact gkipRefine_length_of_ok n fk resp solve reg unique bso perm split key size
      cs state r hr
  · intro key n size unique c hc
    rw [randomSampleReduce_eval] at hc
    split_ifs at hc <;> first
      | exact Except.noConfusion hc
      | (cases hc; simp)

theorem kernelHerdingReduce_sizing (k : ℕ → ℕ → ℚ) (w : List ℚ) (size : ℕ)
    (unique : Bool) (st : Option (List ℚ)) (h : w.length < size) :
    kernelHerdingReduce k w size unique st = Except.error sizingMSG := by
  unfold kernelHerdingReduce
  rw [initialCoresubset_eval, if_pos (by omega)]
  rfl

theorem steinThinningReduce_sizing (k ks : ℕ → ℕ → ℚ) (lap lpdf : ℕ → ℚ) (w : List ℚ)
    (size : ℕ) (unique reg : Bool) (h : w.length < size) :
    steinThinningReduce k ks lap lpdf w size unique reg = Except.error sizingMSG := by
  unfold steinThinningReduce
  rw [initialCoresubset_eval, if_pos (by omega)]
  rfl

theorem rpcholeskyReduce_sizing (k : ℕ → ℕ → ℚ) (sqrtQ : ℚ → ℚ) (foldIn : ℕ → ℕ → ℕ)
    (choiceP : ℕ → (ℕ → ℚ) → ℕ) (key n size : ℕ) (unique : Bool)
    (st : Option (ℕ → ℚ)) (h : n < size) :
    rpcholeskyReduce k sqrtQ foldIn choiceP key n size unique st
      = Except.error sizingMSG := by
  unfold rpcholeskyReduce
  rw [initialCoresubset_eval, if_pos (by omega)]
  rfl

theorem gkipReduce_sizing (n : ℕ) (fk : ℕ → ℕ → ℚ) (resp : List ℚ)
    (solve : List (List ℚ) → ℚ → List ℚ → (ℕ → ℕ → ℚ) → List ℚ) (reg : ℚ)
    (unique : Bool) (bso : Option ℕ) (perm : ℕ → List ℤ) (split : ℕ → ℕ → ℕ)
    (key size : ℕ) (state : Option (ℕ → ℕ → ℚ)) (h : n < size) :
    gkipReduce n fk resp solve reg unique bso perm split key size state
      = Except.error sizingMSG := by
  unfold gkipReduce
  rw [initialCoresubset_eval, if_pos (by omega)]

theorem randomSampleReduce_sizing_unique (key n size : ℕ) (h : n < size) :
    randomSampleReduce key n size true = Except.error sizingMSG := by
  rw [randomSampleReduce_eval, if_pos ⟨rfl, h⟩, if_pos ⟨by omega, rfl⟩]

theorem randomSampleReduce_sizing_nonunique (key n size : ℕ) (h : n < size) :
    randomSampleReduce key n size false =
      Except.error "cannot construct a coresubset with more indices than data points" := by
  rw [randomSampleReduce_eval, if_neg (by simp), if_pos h, if_neg (by simp)]

/-- C5: for KernelHerding, RandomSample, SteinThinning and RPCholesky,
requesting `coreset_size > len(dataset)` with `unique = true` raises the
descriptive coreset-definition sizing error `MSG`, distinct from the generic
container and sampling errors, and no coreset is returned. -/
theorem sizing_error_when_coreset_size_exceeds_dataset :
    (∀ (k : ℕ → ℕ → ℚ) (w : List ℚ) (size : ℕ) (st : Option (List ℚ)),
      w.length < size →
      kernelHerdingReduce k w size true st = Except.error sizingMSG) ∧
    (∀ key n size, n < size →
      randomSampleReduce key n size true = Except.error sizingMSG) ∧
    (∀ (k ks : ℕ → ℕ → ℚ) (lap lpdf : ℕ → ℚ) (w : List ℚ) (size : ℕ) (reg : Bool),
      w.length < size →
      steinThinningReduce k ks lap lpdf w size true reg = Except.error sizingMSG) ∧
    (∀ (k : ℕ → ℕ → ℚ) (sqrtQ : ℚ → ℚ) (foldIn : ℕ → ℕ → ℕ)
      (choiceP : ℕ → (ℕ → ℚ) → ℕ) (key n size : ℕ) (st : Option (ℕ → ℚ)),
      n < size →
      rpcholeskyReduce k sqrtQ foldIn choiceP key n size true st
        = Except.error sizingMSG) := by
  exact ⟨fun k w size st h => kernelHerdingReduce_sizing k w size true st h,
    fun key n size h => randomSampleReduce_sizing_unique key n size h,
    fun k ks lap lpdf w size reg h => steinThinningReduce_sizing k ks lap lpdf w size true reg h,
    fun k sqrtQ foldIn choiceP key n size st h =>
      rpcholeskyReduce_sizing k sqrtQ foldIn choiceP key n size true st h⟩

/-- C6: `GreedyKernelInducingPoints.refine` on a genuine coresubset (index
count at most the dataset length, the container's own invariant) whose index
array is longer than `coreset_size` emits exactly the `SizeWarning`,
truncates the index array to its first `coreset_size` entries before
refining, and returns normally: in this situation `coreset_size` is strictly
below the dataset length, so neither the batch sampler's guard nor the final
`Coresubset` wrap's sizing validation can fire. -/
theorem gkip_refine_oversized_warns_and_truncates (n : ℕ) (fk : ℕ → ℕ → ℚ)
    (resp : List ℚ) (solve : List (List ℚ) → ℚ → List ℚ → (ℕ → ℕ → ℚ) → List ℚ)
    (reg : ℚ) (unique : Bool) (bso : Option ℕ) (perm : ℕ → List ℤ)
    (split : ℕ → ℕ → ℕ) (key size : ℕ) (cs : Coresubset)
    (state : Option (ℕ → ℕ → ℚ)) (hcs : cs.indices.length ≤ n)
    (h : size < cs.indices.length) :
    ∃ r, gkipRefine n fk resp solve reg unique bso perm split key size cs state
        = Except.ok r ∧
      r.warnings = [sizeWarningMsg] ∧
      (gkipClipIndices size cs.indices).2 = cs.indices.take size ∧
      r.indices.length = size := by
  obtain ⟨r, hr, hw, hlen⟩ :=
    gkipRefine_ok_length n fk resp solve reg unique bso perm split key size cs state
      (by omega)
  refine ⟨r, hr, ?_, ?_, hlen⟩
  · rw [hw, gkipClipIndices_oversized _ _ h]
  · rw [gkipClipIndices_oversized _ _ h]

/-- C7: every solver is a deterministic function of its inputs: KernelHerding
uses no randomness at all; RPCholesky touches its base key only through the
per-iteration derived keys `fold_in(key, i)` for `i < coreset_size`, so any
two keys whose derived keys agree produce identical output; GKIP touches its
key only through the pre-sampled per-batch permutations, so any two keys with
identical derived batch draws produce identical output. -/
theorem solver_determinism :
    (∀ (k : ℕ → ℕ → ℚ) (w : List ℚ) (size : ℕ) (unique : Bool)
      (cs cs' : Coresubset) (st st' : Option (List ℚ)), cs = cs' → st = st' →
      kernelHerdingRefine k w size unique cs st
        = kernelHerdingRefine k w size unique cs' st') ∧
    (∀ (k : ℕ → ℕ → ℚ) (sqrtQ : ℚ → ℚ) (foldIn : ℕ → ℕ → ℕ)
      (choiceP : ℕ → (ℕ → ℚ) → ℕ) (n size : ℕ) (unique : Bool)
      (st : Option (ℕ → ℚ)) (key1 key2 : ℕ),
      (∀ i, i < size → foldIn key1 i = foldIn key2 i) →
      rpcholeskyReduce k sqrtQ foldIn choiceP key1 n size unique st =
      rpcholeskyReduce k sqrtQ foldIn choiceP key2 n size unique st) ∧
    (∀ (n : ℕ) (fk : ℕ → ℕ → ℚ) (resp : List ℚ)
      (solve : List (List ℚ) → ℚ → List ℚ → (ℕ → ℕ → ℚ) → List ℚ) (reg : ℚ)
      (unique : Bool) (bso : Option ℕ) (perm : ℕ → List ℤ) (split : ℕ → ℕ → ℕ)
      (size : ℕ) (cs : Coresubset) (state : Option (ℕ → ℕ → ℚ)) (key1 key2 : ℕ),
      (∀ b, b < size → perm (split key1 b) = perm (split key2 b)) →
      gkipRefine n fk resp solve reg unique bso perm split key1 size cs state =
      gkipRefine n fk resp solve reg unique bso perm split key2 size cs state) := by
  refine ⟨?_, ?_, ?_⟩
  · intro k w size unique cs cs' st st' hcs hst
    rw [hcs, hst]
  · intro k sqrtQ foldIn choiceP n size unique st key1 key2 h
    unfold rpcholeskyReduce
    cases initialCoresubset 0 size n with
    | error e => rfl
    | ok cs =>
        simp only [Except.map]
        have heq : iterate (rpcholeskyGreedyBody n size k sqrtQ foldIn choiceP key1 unique)
            size ⟨st.getD (fun i => k i i), fun _ _ => 0, cs.indices⟩ =
          iterate (rpcholeskyGreedyBody n size k sqrtQ foldIn choiceP key2 unique)
            size ⟨st.getD (fun i => k i i), fun _ _ => 0, cs.indices⟩ :=
          iterate_congr _ _ size (fun i hi s => by
            simp only [rpcholeskyGreedyBody, h i hi]) _
        rw [heq]
  · intro n fk resp solve reg unique bso perm split size cs state key1 key2 h
    have hbatch : ∀ bS, sampleBatchIndices perm split key1 n bS size
        = sampleBatchIndices perm split key2 n bS size := by
      intro bS
      unfold sampleBatchIndices
      by_cases hg : n < bS
      · rw [if_pos hg, if_pos hg]
      · rw [if_neg hg, if_neg hg]
        congr 1
        exact List.map_congr_left (fun b hb => by rw [h b (List.mem_range.mp hb)])
    simp only [gkipRefine]
    rw [hbatch]

/-- C8: KernelHerding refinement is idempotent at a converged coreset: if
refining the returned-form coresubset (index array wrapped with the default
unit node weights by `as_data`) with the cached Gramian row-mean state
reproduces its own selected indices, then refining the returned coresubset a
second time with the same cached state reproduces them again. -/
theorem herding_refine_idempotent_at_fixed_point (k : ℕ → ℕ → ℚ) (w : List ℚ)
    (size : ℕ) (unique : Bool) (st : Option (List ℚ)) (r : List ℤ)
    (h : (kernelHerdingRefine k w size unique (asOutputCoresubset r) st).1 = r) :
    (kernelHerdingRefine k w size unique
      (asOutputCoresubset
        ((kernelHerdingRefine k w size unique (asOutputCoresubset r) st).1)) st).1
      = (kernelHerdingRefine k w size unique (asOutputCoresubset r) st).1 := by
  rw [h]
  exact h

/-- C9 (amended): for KernelHerding, SteinThinning, RPCholesky and
GreedyKernelInducingPoints, `reduce` raises the descriptive sizing error
`MSG` whenever `coreset_size > len(dataset)`, whatever the value of `unique`
(the placeholder construction fails before any selection runs).  By
contrast, RandomSample with `unique = false` also fails — the with-replacement
sample is drawn, but wrapping it in the `Coresubset` container raises the
container's generic sizing error, re-raised unchanged — rather than
returning a coreset, as the counterexample shows. -/
theorem reduce_sizing_errors_amended :
    (∀ (k : ℕ → ℕ → ℚ) (w : List ℚ) (size : ℕ) (unique : Bool) (st : Option (List ℚ)),
      w.length < size →
      kernelHerdingReduce k w size unique st = Except.error sizingMSG) ∧
    (∀ (k ks : ℕ → ℕ → ℚ) (lap lpdf : ℕ → ℚ) (w : List ℚ) (size : ℕ)
      (unique reg : Bool), w.length < size →
      steinThinningReduce k ks lap lpdf w size unique reg = Except.error sizingMSG) ∧
    (∀ (k : ℕ → ℕ → ℚ) (sqrtQ : ℚ → ℚ) (foldIn : ℕ → ℕ → ℕ)
      (choiceP : ℕ → (ℕ → ℚ) → ℕ) (key n size : ℕ) (unique : Bool)
      (st : Option (ℕ → ℚ)), n < size →
      rpcholeskyReduce k sqrtQ foldIn choiceP key n size unique st
        = Except.error sizingMSG) ∧
    (∀ (n : ℕ) (fk : ℕ → ℕ → ℚ) (resp : List ℚ)
      (solve : List (List ℚ) → ℚ → List ℚ → (ℕ → ℕ → ℚ) → List ℚ) (reg : ℚ)
      (unique : Bool) (bso : Option ℕ) (perm : ℕ → List ℤ) (split : ℕ → ℕ → ℕ)
      (key size : ℕ) (state : Option (ℕ → ℕ → ℚ)), n < size →
      gkipReduce n fk resp solve reg unique bso perm split key size state
        = Except.error sizingMSG) ∧
    (∀ key n size, n < size →
      randomSampleReduce key n size false =
        Except.error
          "cannot construct a coresubset with more indices than data points") := by
  exact ⟨fun k w size unique st h => kernelHerdingReduce_sizing k w size unique st h,
    fun k ks lap lpdf w size unique reg h =>
      steinThinningReduce_sizing k ks lap lpdf w size unique reg h,
    fun k sqrtQ foldIn choiceP key n size unique st h =>
      rpcholeskyReduce_sizing k sqrtQ foldIn choiceP key n size unique st h,
    fun n fk resp solve reg unique bso perm split key size state h =>
      gkipReduce_sizing n fk resp solve reg unique bso perm split key size state h,
    fun key n size h => randomSampleReduce_sizing_nonunique key n size h⟩

/-- C1: the RPCholesky loop body writes the new factor column
`g / sqrt(g[pivot])` into column `i` (here `[2, 1]`, so entry `1` of the
column is `1`), but the residual-diagonal update squares column `i` of the
PRE-UPDATE approximation matrix — still all zeros — so the residual entry `1`
stays `4` instead of `max (4 - 1²) 0 = 3`, which is what subtracting the
square of the newly computed factor column (as the spec and the cited
Algorithm 1 require, and as `rpcholeskyGreedyBodySpec` does) would give. -/
theorem rpcholesky_residual_update_uses_stale_column :
    ((rpcholeskyGreedyBody 2 1 (fun i j => if i = j then (4 : ℚ) else 2)
        (fun q => if q = 4 then 2 else q) (fun ky _ => ky) (fun _ _ => 0) 0 true 0
        ⟨fun _ => (4 : ℚ), fun _ _ => 0, [0]⟩).approx 1 0 = 1) ∧
    ((rpcholeskyGreedyBody 2 1 (fun i j => if i = j then (4 : ℚ) else 2)
        (fun q => if q = 4 then 2 else q) (fun ky _ => ky) (fun _ _ => 0) 0 true 0
        ⟨fun _ => (4 : ℚ), fun _ _ => 0, [0]⟩).residual 1 = 4) ∧
    ((rpcholeskyGreedyBodySpec 2 1 (fun i j => if i = j then (4 : ℚ) else 2)
        (fun q => if q = 4 then 2 else q) (fun ky _ => ky) (fun _ _ => 0) 0 true 0
        ⟨fun _ => (4 : ℚ), fun _ _ => 0, [0]⟩).residual 1 = 3) ∧
    (4 : ℚ) ≠ max (4 - 1 ^ 2) 0 := by
  refine ⟨?_, ?_, ?_, by norm_num⟩ <;>
    norm_num [rpcholeskyGreedyBody, rpcholeskyGreedyBodySpec, rowDot, List.range_succ]

/-- C2: `SteinThinning.refine` computes its self-diagonal from the SUPPLIED
kernel (`jax.vmap(self.kernel.compute_elementwise)`), not from the converted
Stein kernel: with a base kernel whose diagonal is `(0, 5)` and a converted
Stein kernel whose diagonal is `(5, 0)`, the code selects index `0` while the
spec-worded Stein-diagonal variant selects index `1`. -/
theorem stein_diagonal_uses_base_kernel :
    steinThinningReduce (fun i j => if i = 1 ∧ j = 1 then (5 : ℚ) else 0)
        (fun i j => if i = 0 ∧ j = 0 then (5 : ℚ) else 0) (fun _ => 0) (fun _ => 0)
        [1, 1] 1 true false = Except.ok [0] ∧
    steinThinningReduceSpecDiag (fun i j => if i = 1 ∧ j = 1 then (5 : ℚ) else 0)
        (fun i j => if i = 0 ∧ j = 0 then (5 : ℚ) else 0) (fun _ => 0) (fun _ => 0)
        [1, 1] 1 true false = Except.ok [1] ∧
    ((fun i j => if i = 1 ∧ j = 1 then (5 : ℚ) else 0) : ℕ → ℕ → ℚ) 1 1 ≠
      ((fun i j => if i = 0 ∧ j = 0 then (5 : ℚ) else 0) : ℕ → ℕ → ℚ) 1 1 := by
  refine ⟨?_, ?_, by norm_num⟩ <;>
    norm_num [steinThinningReduce, steinThinningRefine, steinThinningReduceSpecDiag,
      steinThinningRefineSpecDiag, initialCoresubset, coresubsetNew,
      greedyKernelSelection, greedyBody, iterate, computeMeanAxis1,
      steinSelectionFunction, nanargmin, bestIdx, bestIdxAux, XQ.ltMin, XQ.sub, XQ.div,
      XQ.add, XQ.neg, XQ.mul, XQ.isNan, fset, zwrap, List.range_succ, Except.map,
      List.replicate, List.enum, List.enumFrom]

/-- C3 (counterexample): KernelHerding with `unique = true` on the dataset
with weights `[1, 0]` and the all-ones kernel, at `coreset_size = 2`, returns
the index array `[0, 0]` — the zero-weight point is NaN-masked every
iteration, the already-selected point's value is `-inf`, and
`jnp.nanargmax` maps NaN to `-inf` before taking the first maximal index, so
index `0` is selected twice: the returned coresubset has duplicate
non-placeholder indices. -/
theorem herding_unique_duplicate_counterexample :
    kernelHerdingReduce (fun _ _ => (1 : ℚ)) [1, 0] 2 true none =
      Except.ok ([0, 0], [1, 1]) ∧ ¬ ([0, 0] : List ℤ).Nodup := by
  constructor
  · norm_num [kernelHerdingReduce, kernelHerdingRefine, initialCoresubset, coresubsetNew,
      greedyKernelSelection, greedyBody, iterate, computeMeanAxis1, gramianRowMean,
      herdingSelectionFunction, nanargmax, bestIdx, bestIdxAux, XQ.ltMax, XQ.sub, XQ.div,
      XQ.add, XQ.neg, XQ.isNan, fset, zwrap, List.range_succ, Except.map, List.replicate]
  · decide

/-- C10 (counterexample): KernelHerding with `unique = true` on the dataset
with weights `[0, 1]` and the all-ones kernel, at `coreset_size = 2`, returns
`[1, 0]`: after the only positive-weight point is selected and excluded with
`+inf`, every candidate value is NaN or `-inf`, which `jnp.nanargmax` merges,
so the zero-weight index `0` is written into the returned coresubset even
though one positive-weight point exists. -/
theorem herding_zero_weight_selected_counterexample :
    kernelHerdingReduce (fun _ _ => (1 : ℚ)) [0, 1] 2 true none =
      Except.ok ([1, 0], [1, 1]) ∧ ¬ (0 < ([0, 1] : List ℚ).getD 0 0) := by
  constructor
  · norm_num [kernelHerdingReduce, kernelHerdingRefine, initialCoresubset, coresubsetNew,
      greedyKernelSelection, greedyBody, iterate, computeMeanAxis1, gramianRowMean,
      herdingSelectionFunction, nanargmax, bestIdx, bestIdxAux, XQ.ltMax, XQ.sub, XQ.div,
      XQ.add, XQ.neg, XQ.isNan, fset, zwrap, List.range_succ, Except.map, List.replicate]
  · decide

/-- C9 (counterexample): RandomSample with `unique = false` and
`coreset_size = 2 > 1 = len(dataset)` does not return a with-replacement
coreset: the `Coresubset` constructor rejects the oversized index array and
its generic sizing error propagates unchanged. -/
theorem random_sample_nonunique_oversized_raises_counterexample :
    randomSampleReduce 0 1 2 false =
      Except.error "cannot construct a coresubset with more indices than data points" ∧
    ∀ c : Coresubset, randomSampleReduce 0 1 2 false ≠ Except.ok c := by
  constructor
  · rw [randomSampleReduce_eval]
    norm_num
  · intro c
    rw [randomSampleReduce_eval]
    norm_num
    exact fun hcon => Except.noConfusion hcon

/-! ### Witnesses: the claim theorems applied at concrete inputs -/

/-- Witness for `unique_solvers_nodup_amended` at concrete inputs. -/
theorem unique_solvers_nodup_amended_witness :
    ((kernelHerdingRefine (fun _ _ => (1 : ℚ)) [1, 1] 2 true ⟨[], []⟩ none).1).Nodup ∧
    (steinThinningRefine (fun _ _ => (1 : ℚ)) (fun _ _ => 1) (fun _ => 0) (fun _ => 0)
      [1, 1] 2 true false ⟨[], []⟩).Nodup ∧
    ((iterate (rpcholeskyGreedyBody 1 1 (fun _ _ => (1 : ℚ)) id (fun ky _ => ky)
        (fun _ _ => 0) 0 true) 1
        ⟨(none : Option (ℕ → ℚ)).getD (fun i => (fun _ _ => (1 : ℚ)) i i),
         fun _ _ => 0, List.replicate 1 0⟩).indices).Nodup ∧
    ∃ r, gkipRefine 1 (fun _ _ => (1 : ℚ)) [1] (fun _ _ t _ => t) 1 true none
        (fun _ => [(0 : ℤ)]) (fun _ _ => 0) 0 1 ⟨[], []⟩ none = Except.ok r ∧
      r.indices.Nodup := by
  have hchoice : ChoiceOk 1 (fun _ _ => 0) := by
    intro ky r h
    obtain ⟨j, hj, hr⟩ := h
    have hj0 : j = 0 := by omega
    exact ⟨Nat.one_pos, by rwa [hj0] at hr⟩
  have hperm : PermCover 1 (fun _ => [(0 : ℤ)]) := by
    intro s
    refine ⟨rfl, fun j hj => ?_, fun z hz => ⟨0, Nat.one_pos, by simpa using hz⟩⟩
    have hj0 : j = 0 := by omega
    simp [hj0]
  refine ⟨?_, ?_, ?_, ?_⟩
  · exact unique_solvers_nodup_amended.1 (fun _ _ => (1 : ℚ)) [1, 1] 2 ⟨[], []⟩ none
      (by simp [gramianRowMean]) (by decide)
  · exact unique_solvers_nodup_amended.2.1 (fun _ _ => (1 : ℚ)) (fun _ _ => 1)
      (fun _ => 0) (fun _ => 0) [1, 1] 2 false ⟨[], []⟩ (by decide)
  · exact unique_solvers_nodup_amended.2.2.1 (fun _ _ => (1 : ℚ)) id (fun ky _ => ky)
      (fun _ _ => 0) 0 1 1 none hchoice (by decide) (by omega) _
      (rpcholeskyReduce_ok (fun _ _ => (1 : ℚ)) id (fun ky _ => ky) (fun _ _ => 0)
        0 1 1 true none (by omega))
  · obtain ⟨r, hr, _, _⟩ := gkipRefine_ok_length 1 (fun _ _ => (1 : ℚ)) [1]
      (fun _ _ t _ => t) 1 true none (fun _ => [(0 : ℤ)]) (fun _ _ => 0) 0 1 ⟨[], []⟩ none
      (by omega)
    exact ⟨r, hr, unique_solvers_nodup_amended.2.2.2 1 (fun _ _ => (1 : ℚ)) [1]
      (fun _ _ t _ => t) 1 (fun _ => [(0 : ℤ)]) (fun _ _ => 0) 0 1 ⟨[], []⟩ none
      hperm (by omega) r hr⟩

/-- Witness for `zero_weight_points_never_selected_amended` at concrete inputs. -/
theorem zero_weight_points_never_selected_amended_witness :
    (∀ z ∈ (kernelHerdingRefine (fun _ _ => (1 : ℚ)) [1, 1] 2 true ⟨[], []⟩ none).1,
      ∃ c : ℕ, z = (c : ℤ) ∧ c < ([1, 1] : List ℚ).length ∧
        0 < ([1, 1] : List ℚ).getD c 0) ∧
    (∀ z ∈ steinThinningRefine (fun _ _ => (1 : ℚ)) (fun _ _ => 1) (fun _ => 0)
        (fun _ => 0) [1, 1] 2 true false ⟨[], []⟩,
      ∃ c : ℕ, z = (c : ℤ) ∧ c < ([1, 1] : List ℚ).length ∧
        0 < ([1, 1] : List ℚ).getD c 0) := by
  constructor
  · exact zero_weight_points_never_selected_amended.1 (fun _ _ => (1 : ℚ)) [1, 1] 2
      ⟨[], []⟩ none (by simp [gramianRowMean]) (by decide)
  · exact zero_weight_points_never_selected_amended.2 (fun _ _ => (1 : ℚ)) (fun _ _ => 1)
      (fun _ => 0) (fun _ => 0) [1, 1] 2 false ⟨[], []⟩ (by decide)

/-- Witness for `solver_output_length_eq_coreset_size` at concrete inputs. -/
theorem solver_output_length_eq_coreset_size_witness :
    ((kernelHerdingRefine (fun _ _ => (1 : ℚ)) [1] 2 true ⟨[], []⟩ none).1).length = 2 ∧
    (steinThinningRefine (fun _ _ => (1 : ℚ)) (fun _ _ => 1) (fun _ => 0) (fun _ => 0)
      [1] 3 true false ⟨[0, 0, 0, 0], [1, 1, 1, 1]⟩).length = 3 ∧
    ((iterate (rpcholeskyGreedyBody 1 1 (fun _ _ => (1 : ℚ)) id (fun ky _ => ky)
        (fun _ _ => 0) 0 true) 1
        ⟨(none : Option (ℕ → ℚ)).getD (fun i => (fun _ _ => (1 : ℚ)) i i),
         fun _ _ => 0, List.replicate 1 0⟩).indices).length = 1 ∧
    (∃ r, gkipRefine 1 (fun _ _ => (1 : ℚ)) [1] (fun _ _ t _ => t) 1 true none
        (fun _ => [(0 : ℤ)]) (fun _ _ => 0) 0 1 ⟨[], []⟩ none = Except.ok r ∧
      r.indices.length = 1) ∧
    (⟨[3, 0], List.replicate 2 1⟩ : Coresubset).indices.length = 2 := by
  refine ⟨?_, ?_, ?_, ?_, ?_⟩
  · exact solver_output_length_eq_coreset_size.1 (fun _ _ => (1 : ℚ)) [1] 2 true
      ⟨[], []⟩ none
  · exact solver_output_length_eq_coreset_size.2.1 (fun _ _ => (1 : ℚ)) (fun _ _ => 1)
      (fun _ => 0) (fun _ => 0) [1] 3 true false ⟨[0, 0, 0, 0], [1, 1, 1, 1]⟩
  · exact solver_output_length_eq_coreset_size.2.2.1 (fun _ _ => (1 : ℚ)) id
      (fun ky _ => ky) (fun _ _ => 0) 0 1 1 true none _
      (rpcholeskyReduce_ok (fun _ _ => (1 : ℚ)) id (fun ky _ => ky) (fun _ _ => 0)
        0 1 1 true none (by omega))
  · obtain ⟨r, hr, _, _⟩ := gkipRefine_ok_length 1 (fun _ _ => (1 : ℚ)) [1]
      (fun _ _ t _ => t) 1 true none (fun _ => [(0 : ℤ)]) (fun _ _ => 0) 0 1 ⟨[], []⟩
      none (by omega)
    exact ⟨r, hr, solver_output_length_eq_coreset_size.2.2.2.1 1 (fun _ _ => (1 : ℚ)) [1]
      (fun _ _ t _ => t) 1 true none (fun _ => [(0 : ℤ)]) (fun _ _ => 0) 0 1
      ⟨[], []⟩ none r hr⟩
  · exact solver_output_length_eq_coreset_size.2.2.2.2 3 4 2 false
      ⟨[3, 0], List.replicate 2 1⟩ (by decide)

/-- Witness for `sizing_error_when_coreset_size_exceeds_dataset` at concrete
inputs (`len(dataset) = 1`, `coreset_size = 2`, `unique = true`). -/
theorem sizing_error_when_coreset_size_exceeds_dataset_witness :
    kernelHerdingReduce (fun _ _ => (1 : ℚ)) [1] 2 true none = Except.error sizingMSG ∧
    randomSampleReduce 0 1 2 true = Except.error sizingMSG ∧
    steinThinningReduce (fun _ _ => (1 : ℚ)) (fun _ _ => 1) (fun _ => 0) (fun _ => 0)
      [1] 2 true false = Except.error sizingMSG ∧
    rpcholeskyReduce (fun _ _ => (1 : ℚ)) id (fun ky _ => ky) (fun _ _ => 0) 0 1 2 true
      none = Except.error sizingMSG := by
  exact ⟨sizing_error_when_coreset_size_exceeds_dataset.1 (fun _ _ => (1 : ℚ)) [1] 2
      none (by simp),
    sizing_error_when_coreset_size_exceeds_dataset.2.1 0 1 2 (by omega),
    sizing_error_when_coreset_size_exceeds_dataset.2.2.1 (fun _ _ => (1 : ℚ))
      (fun _ _ => 1) (fun _ => 0) (fun _ => 0) [1] 2 false (by simp),
    sizing_error_when_coreset_size_exceeds_dataset.2.2.2 (fun _ _ => (1 : ℚ)) id
      (fun ky _ => ky) (fun _ _ => 0) 0 1 2 none (by omega)⟩

/-- Witness for `gkip_refine_oversized_warns_and_truncates` at a concrete
oversized input (`len(dataset) = 2`, `coreset_size = 1`, input index array of
length 2). -/
theorem gkip_refine_oversized_warns_and_truncates_witness :
    ((⟨[0, 5], [1, 1]⟩ : Coresubset).indices.length ≤ 2 ∧
      1 < (⟨[0, 5], [1, 1]⟩ : Coresubset).indices.length) ∧
    ∃ r, gkipRefine 2 (fun _ _ => (1 : ℚ)) [1, 1] (fun _ _ t _ => t) 1 true none
        (fun _ => [(0 : ℤ), 1]) (fun _ _ => 0) 0 1 ⟨[0, 5], [1, 1]⟩ none = Except.ok r ∧
      r.warnings = [sizeWarningMsg] ∧
      (gkipClipIndices 1 (⟨[0, 5], [1, 1]⟩ : Coresubset).indices).2
        = (⟨[0, 5], [1, 1]⟩ : Coresubset).indices.take 1 ∧
      r.indices.length = 1 :=
  ⟨⟨by norm_num, by norm_num⟩,
    gkip_refine_oversized_warns_and_truncates 2 (fun _ _ => (1 : ℚ)) [1, 1]
      (fun _ _ t _ => t) 1 true none (fun _ => [(0 : ℤ), 1]) (fun _ _ => 0) 0 1
      ⟨[0, 5], [1, 1]⟩ none (by norm_num) (by norm_num)⟩

/-- Witness for `solver_determinism` at concrete inputs, with two distinct
base keys whose derived per-iteration keys and batch draws agree. -/
theorem solver_determinism_witness :
    kernelHerdingRefine (fun _ _ => (1 : ℚ)) [1] 1 true ⟨[], []⟩ none
      = kernelHerdingRefine (fun _ _ => (1 : ℚ)) [1] 1 true ⟨[], []⟩ none ∧
    rpcholeskyReduce (fun _ _ => (1 : ℚ)) id (fun ky i => ky % 4) (fun _ _ => 0) 1 1 1
      true none =
    rpcholeskyReduce (fun _ _ => (1 : ℚ)) id (fun ky i => ky % 4) (fun _ _ => 0) 5 1 1
      true none ∧
    gkipRefine 1 (fun _ _ => (1 : ℚ)) [1] (fun _ _ t _ => t) 1 true none
      (fun s => [(s : ℤ)]) (fun ky _ => ky % 3) 2 1 ⟨[], []⟩ none =
    gkipRefine 1 (fun _ _ => (1 : ℚ)) [1] (fun _ _ t _ => t) 1 true none
      (fun s => [(s : ℤ)]) (fun ky _ => ky % 3) 5 1 ⟨[], []⟩ none := by
  refine ⟨?_, ?_, ?_⟩
  · exact solver_determinism.1 (fun _ _ => (1 : ℚ)) [1] 1 true ⟨[], []⟩ ⟨[], []⟩
      none none rfl rfl
  · exact solver_determinism.2.1 (fun _ _ => (1 : ℚ)) id (fun ky i => ky % 4)
      (fun _ _ => 0) 1 1 true none 1 5 (by intro i hi; rfl)
  · exact solver_determinism.2.2 1 (fun _ _ => (1 : ℚ)) [1] (fun _ _ t _ => t) 1 true
      none (fun s => [(s : ℤ)]) (fun ky _ => ky % 3) 1 ⟨[], []⟩ none 2 5
      (by intro b hb; rfl)

/-- Witness for `herding_refine_idempotent_at_fixed_point`: with a single data
point, unit weight and the all-ones kernel, `[0]` is a fixed point of the
refinement, and refining its returned coresubset again reproduces it. -/
theorem herding_refine_idempotent_at_fixed_point_witness :
    (kernelHerdingRefine (fun _ _ => (1 : ℚ)) [1] 1 true
      (asOutputCoresubset
        ((kernelHerdingRefine (fun _ _ => (1 : ℚ)) [1] 1 true (asOutputCoresubset [0])
          (some [1])).1)) (some [1])).1
      = (kernelHerdingRefine (fun _ _ => (1 : ℚ)) [1] 1 true (asOutputCoresubset [0])
          (some [1])).1 :=
  herding_refine_idempotent_at_fixed_point (fun _ _ => (1 : ℚ)) [1] 1 true (some [1]) [0]
    (by norm_num [kernelHerdingRefine, asOutputCoresubset, greedyKernelSelection,
      greedyBody, iterate, computeMeanAxis1, herdingSelectionFunction, nanargmax,
      bestIdx, bestIdxAux, XQ.ltMax, XQ.sub, XQ.div, XQ.add, XQ.neg, XQ.isNan, fset,
      zwrap, List.range_succ, List.replicate])

/-- Witness for `reduce_sizing_errors_amended` at concrete inputs
(`len(dataset) = 1`, `coreset_size = 2`, `unique = false` throughout). -/
theorem reduce_sizing_errors_amended_witness :
    kernelHerdingReduce (fun _ _ => (1 : ℚ)) [1] 2 false none = Except.error sizingMSG ∧
    steinThinningReduce (fun _ _ => (1 : ℚ)) (fun _ _ => 1) (fun _ => 0) (fun _ => 0)
      [1] 2 false false = Except.error sizingMSG ∧
    rpcholeskyReduce (fun _ _ => (1 : ℚ)) id (fun ky _ => ky) (fun _ _ => 0) 0 1 2 false
      none = Except.error sizingMSG ∧
    gkipReduce 1 (fun _ _ => (1 : ℚ)) [1] (fun _ _ t _ => t) 1 false none
      (fun _ => [(0 : ℤ)]) (fun _ _ => 0) 0 2 none = Except.error sizingMSG ∧
    randomSampleReduce 0 1 2 false =
      Except.error "cannot construct a coresubset with more indices than data points" := by
  exact ⟨reduce_sizing_errors_amended.1 (fun _ _ => (1 : ℚ)) [1] 2 false none (by simp),
    reduce_sizing_errors_amended.2.1 (fun _ _ => (1 : ℚ)) (fun _ _ => 1) (fun _ => 0)
      (fun _ => 0) [1] 2 false false (by simp),
    reduce_sizing_errors_amended.2.2.1 (fun _ _ => (1 : ℚ)) id (fun ky _ => ky)
      (fun _ _ => 0) 0 1 2 false none (by omega),
    reduce_sizing_errors_amended.2.2.2.1 1 (fun _ _ => (1 : ℚ)) [1] (fun _ _ t _ => t)
      1 false none (fun _ => [(0 : ℤ)]) (fun _ _ => 0) 0 2 none (by omega),
    reduce_sizing_errors_amended.2.2.2.2 0 1 2 (by omega)⟩

end Coreax
